import Mathlib

/-!
Verification of the selective data-extraction pipeline of the
mariadb-extractor repository (command `data`, file cmd/data.go).
Strings are modelled as lists of characters (`Str`); Go's int64 values are
modelled as `Int` with an explicit 64-bit wrap where overflow could matter;
the database is modelled as explicit parameters (row counts, row lists,
table lists, foreign-key lists) supplied to the pure pipeline functions.
-/

/-- Character-list strings: the model of Go `string` values. -/
abbrev Str := List Char

/-- Conversion helper from Lean string literals to the `Str` model. -/
def chars (s : String) : Str := s.toList

/-! ## Pattern filter (shouldIncludeTable / matchesPattern, cmd/data.go lines 338-367) -/

/-- Models Go `strings.HasPrefix s pre`. -/
def hasPrefixL : Str → Str → Bool
  | _, [] => true
  | [], _ :: _ => false
  | c :: cs, p :: ps => c == p && hasPrefixL cs ps

/-- Fuelled worker for `replaceAllL`; with fuel at least the length of the
subject string it computes Go `strings.ReplaceAll` for a non-empty `old`
(the only way the repository calls it). Structural in the fuel so that it
evaluates by `decide`. -/
def replaceFuel (old new : Str) : Nat → Str → Str
  | _, [] => []
  | 0, s => s
  | fuel + 1, c :: cs =>
    if hasPrefixL (c :: cs) old && !old.isEmpty then
      new ++ replaceFuel old new fuel ((c :: cs).drop old.length)
    else
      c :: replaceFuel old new fuel cs

/-- Models Go `strings.ReplaceAll s old new` for non-empty `old`:
left-to-right, non-overlapping replacement of every occurrence. -/
def replaceAllL (s old new : Str) : Str := replaceFuel old new s.length s

/-- Models Go `strings.Contains s pat` (substring containment). -/
def containsL : Str → Str → Bool
  | [], pat => pat.isEmpty
  | c :: cs, pat => hasPrefixL (c :: cs) pat || containsL cs pat

/-- Embedding of `matchesPattern` (cmd/data.go lines 360-367): the pattern
has `*` expanded to `.*`, is wrapped in `^...$`, then the literal prefixes
`^.*` and suffixes `.*$` are stripped again and a plain substring
containment test is performed on what remains. -/
def matchesPattern (text pat : Str) : Bool :=
  let p1 := replaceAllL pat ['*'] ['.', '*']
  let p2 := '^' :: p1 ++ ['$']
  containsL text (replaceAllL (replaceAllL p2 ['^', '.', '*'] []) ['.', '*', '$'] [])

/-- Embedding of `shouldIncludeTable` (cmd/data.go lines 338-358): exclude
patterns are checked first and win; then a non-empty include list requires
at least one match; otherwise the table is included. -/
def shouldIncludeTable (includeTables excludeTables : List Str) (tableName : Str) : Bool :=
  if excludeTables.any (fun pat => matchesPattern tableName pat) then false
  else if includeTables.length > 0 then
    includeTables.any (fun pat => matchesPattern tableName pat)
  else true

/-- Fuelled worker for `globMatchSpec`; with fuel at least the sum of both
lengths it decides anchored wildcard matching. -/
def globFuel : Nat → Str → Str → Bool
  | 0, p, t => p.isEmpty && t.isEmpty
  | _ + 1, [], t => t.isEmpty
  | fuel + 1, '*' :: ps, t =>
    globFuel fuel ps t ||
      (match t with
       | [] => false
       | _ :: ts => globFuel fuel ('*' :: ps) ts)
  | _ + 1, _ :: _, [] => false
  | fuel + 1, p :: ps, c :: ts => p == c && globFuel fuel ps ts

/-- Modelled from the spec: pattern matching where `*` stands for zero or
more arbitrary characters, anchored to the entire name (the semantics the
spec prescribes for the pattern filter). -/
def globMatchSpec (pat text : Str) : Bool := globFuel (pat.length + text.length) pat text

/-! ## Row serializer (formatSQLValue, cmd/data.go lines 726-765) -/

/-- Runtime values handed to the row serializer. The repository also has
arms for `time.Time` and `float64`; no claim concerns them and wall-clock
and floating-point values are outside the embedding, so they are omitted. -/
inductive SQLValue where
  | null : SQLValue
  | bytes : Str → SQLValue
  | str : Str → SQLValue
  | intVal : Int → SQLValue
  | boolVal : Bool → SQLValue
  deriving DecidableEq

/-- Embedding of the escaping chain in `formatSQLValue`: five successive
`strings.ReplaceAll` calls, in source order (backslash first). -/
def escapeSQLString (s : Str) : Str :=
  let s1 := replaceAllL s ['\\'] ['\\', '\\']
  let s2 := replaceAllL s1 ['\''] ['\\', '\'']
  let s3 := replaceAllL s2 ['\n'] ['\\', 'n']
  let s4 := replaceAllL s3 ['\r'] ['\\', 'r']
  replaceAllL s4 ['\t'] ['\\', 't']

/-- Embedding of `formatSQLValue` (cmd/data.go lines 726-765) on the
modelled value arms: nil maps to the bare token NULL, byte slices and
strings are escaped and single-quoted, int64 prints in decimal, bool as
1 or 0. -/
def formatSQLValue : SQLValue → Str
  | SQLValue.null => chars ("NULL")
  | SQLValue.bytes s => '\'' :: escapeSQLString s ++ ['\'']
  | SQLValue.str s => '\'' :: escapeSQLString s ++ ['\'']
  | SQLValue.intVal i => (toString i).toList
  | SQLValue.boolVal b => if b then ['1'] else ['0']

/-- Modelled from the spec: the per-character escape table of the row
serializer (backslash, quote, newline, carriage-return, tab escaped). -/
def escapeSpecChar (c : Char) : Str :=
  if c = '\\' then ['\\', '\\']
  else if c = '\'' then ['\\', '\'']
  else if c = '\n' then ['\\', 'n']
  else if c = '\r' then ['\\', 'r']
  else if c = '\t' then ['\\', 't']
  else [c]

/-- Modelled from the spec: character-wise escaping of a whole string. -/
def escapeSpec (s : Str) : Str := s.flatMap escapeSpecChar

/-! ## Extraction plans and the dependency resolver (cmd/data.go lines 21-481) -/

/-- Embedding of the `ForeignKeyInfo` struct. -/
structure ForeignKeyInfo where
  ConstraintName : Str
  TableName : Str
  ColumnName : Str
  RefTableName : Str
  RefColumnName : Str
  deriving DecidableEq

/-- Embedding of the `TableExtractionPlan` struct. -/
structure TableExtractionPlan where
  DatabaseName : Str
  TableName : Str
  RowCount : Int
  SampleSize : Int
  WhereClause : Str
  Dependencies : List Str
  Order : Int
  deriving DecidableEq

/-- The linear search `for _, plan := range plans if plan.TableName == tableName`
inside `sortByDependencies`: the first plan carrying the name. -/
def findPlan (plans : List TableExtractionPlan) (name : Str) : Option TableExtractionPlan :=
  plans.find? (fun p => p.TableName == name)

/-- State of the depth-first walk in `sortByDependencies`: the output list
`sorted` and the `visited` set (modelled as a list of names). -/
structure SortState where
  sorted : List TableExtractionPlan
  visited : List Str
  deriving DecidableEq

/-- Embedding of the inner closure `visit` of `sortByDependencies`
(cmd/data.go lines 448-481): return if already visited, mark visited, look
up the first plan with that name, recursively visit its dependencies, then
append the plan. The Go closure recurses without fuel; the fuel here only
bounds nesting depth, and `sortFuel` is proved sufficient below, which is
exactly the termination of the Go recursion. -/
def visit (plans : List TableExtractionPlan) : Nat → Str → SortState → SortState
  | 0, _, st => st
  | fuel + 1, name, st =>
    if name ∈ st.visited then st
    else
      let st1 : SortState := ⟨st.sorted, name :: st.visited⟩
      match findPlan plans name with
      | none => st1
      | some plan =>
        let st2 := plan.Dependencies.foldl (fun s d => visit plans fuel d s) st1
        ⟨st2.sorted ++ [plan], st2.visited⟩

/-- Every name the walk can ever touch: table names and dependency names. -/
def allDepNames (plans : List TableExtractionPlan) : List Str :=
  plans.flatMap (fun p => p.TableName :: p.Dependencies)

/-- Fuel sufficient for the walk: one more than the number of touchable names. -/
def sortFuel (plans : List TableExtractionPlan) : Nat := (allDepNames plans).length + 1

/-- The outer loop of `sortByDependencies` with explicit fuel. -/
def sortByDependenciesFuel (plans : List TableExtractionPlan) (fuel : Nat) :
    List TableExtractionPlan :=
  (plans.foldl (fun st p => visit plans fuel p.TableName st) ⟨[], []⟩).sorted

/-- Embedding of `sortByDependencies` (cmd/data.go lines 448-481). -/
def sortByDependencies (plans : List TableExtractionPlan) : List TableExtractionPlan :=
  sortByDependenciesFuel plans (sortFuel plans)

/-- Table names of a plan list, in order. -/
def namesOf (l : List TableExtractionPlan) : List Str := l.map (fun p => p.TableName)

/-- Count of touchable names not yet visited: the termination measure of
the depth-first walk. -/
def unvisitedCount (plans : List TableExtractionPlan) (visited : List Str) : Nat :=
  ((allDepNames plans).dedup.filter (fun n => decide (n ∉ visited))).length

/-- Dependency edge of the graph the resolver walks: the first plan named
`x` lists `y` among its dependencies. -/
def depEdge (plans : List TableExtractionPlan) (x y : Str) : Prop :=
  ∃ p, findPlan plans x = some p ∧ y ∈ p.Dependencies

/-- Reachability along dependency edges. -/
def Reaches (plans : List TableExtractionPlan) : Str → Str → Prop :=
  Relation.ReflTransGen (depEdge plans)

/-- Absence of dependency cycles: no edge closes back on its source. -/
def AcyclicDeps (plans : List TableExtractionPlan) : Prop :=
  ∀ x y, depEdge plans x y → ¬ Reaches plans y x

/-- One walk state extends another: visited only grows and the output list
only grows at its end. -/
def ExtState (st st' : SortState) : Prop :=
  (∀ x ∈ st.visited, x ∈ st'.visited) ∧ ∃ t, st'.sorted = st.sorted ++ t

/-- Invariant of the walk, with `grey` the names currently being visited
on the call stack: output names are distinct, output and grey names are
visited, grey names are not yet output, and every visited name that has a
plan is either already output or still grey. -/
def SortInv (plans : List TableExtractionPlan) (st : SortState) (grey : List Str) : Prop :=
  (namesOf st.sorted).Nodup ∧
  (∀ x ∈ namesOf st.sorted, x ∈ st.visited) ∧
  (∀ x ∈ grey, x ∈ st.visited) ∧
  (∀ x ∈ grey, x ∉ namesOf st.sorted) ∧
  (∀ x ∈ st.visited, (findPlan plans x).isSome → x ∈ namesOf st.sorted ∨ x ∈ grey)

/-- Topological-order property of the output accumulated so far: every
dependency that has a plan in the input already occurs earlier. -/
def TopoInv (plans : List TableExtractionPlan) (st : SortState) : Prop :=
  ∀ i p, st.sorted.get? i = some p → ∀ d ∈ p.Dependencies, (findPlan plans d).isSome →
    ∃ j q, j < i ∧ st.sorted.get? j = some q ∧ q.TableName = d

/-! ## Executor: sample-size resolution and the row scan (cmd/data.go lines 547-567, 649-724) -/

/-- Two's-complement wrap of Go int64 arithmetic. -/
def wrap64 (x : Int) : Int := (x + 2 ^ 63) % 2 ^ 64 - 2 ^ 63

/-- Embedding of the per-table step of `executeExtractionPlan` that stores the
live row count and resolves a pending percentage (cmd/data.go lines
552-558): a negative SampleSize -P resolves to (rowCount * P) / 100 in Go
int64 arithmetic (wrapping multiply, truncated division). -/
def resolveSampleSize (plan : TableExtractionPlan) (rowCount : Int) : TableExtractionPlan :=
  let plan1 := { plan with RowCount := rowCount }
  if plan1.SampleSize < 0 then
    let percentage := wrap64 (-plan1.SampleSize)
    { plan1 with SampleSize := Int.tdiv (wrap64 (rowCount * percentage)) 100 }
  else plan1

/-- Embedding of the LIMIT decision in `extractTableData` (cmd/data.go
lines 657-660): a LIMIT is attached exactly when 0 < SampleSize < RowCount. -/
def queryLimit (plan : TableExtractionPlan) : Option Int :=
  if plan.SampleSize > 0 ∧ plan.SampleSize < plan.RowCount then some plan.SampleSize else none

/-- Rows returned by the scan: the database returns the first LIMIT rows
of the table, or all rows when no LIMIT is attached (semantics of the
external collaborator `scanRows`). -/
def scannedRows (plan : TableExtractionPlan) (tableRows : List (List SQLValue)) :
    List (List SQLValue) :=
  match queryLimit plan with
  | some l => tableRows.take l.toNat
  | none => tableRows

/-! ## Executor: batching of insert statements (cmd/data.go lines 683-723) -/

/-- Models Go `strings.Join parts sep`. -/
def joinSep (sep : Str) : List Str → Str
  | [] => []
  | [l] => l
  | l :: l' :: ls => l ++ sep ++ joinSep sep (l' :: ls)

/-- One serialized row tuple `(v1,v2,...)` as accumulated into the batch. -/
def mkRowTuple (row : List SQLValue) : Str :=
  '(' :: joinSep [','] (row.map formatSQLValue) ++ [')']

/-- One emitted multi-row insert statement for a table. -/
def mkInsertStmt (tableName : Str) (batch : List Str) : Str :=
  chars ("INSERT INTO `") ++ tableName ++ chars ("` VALUES\n") ++
    joinSep [',', '\n'] batch ++ chars (";\n")

/-- Embedding of the batching loop of `extractTableData`: tuples are
accumulated; when the accumulator reaches the batch size it is flushed as
one statement and reset; a non-empty remainder is flushed at end of table. -/
def insertBatches (batchSize : Nat) : List Str → List Str → List (List Str)
  | acc, [] => if acc.length > 0 then [acc] else []
  | acc, t :: ts =>
    let acc' := acc ++ [t]
    if batchSize ≤ acc'.length then acc' :: insertBatches batchSize [] ts
    else insertBatches batchSize acc' ts

/-- The insert statements `extractTableData` emits for one table's rows. -/
def insertStatementsFor (batchSize : Nat) (tableName : Str) (rows : List (List SQLValue)) :
    List Str :=
  (insertBatches batchSize [] (rows.map mkRowTuple)).map (mkInsertStmt tableName)

/-- Closed-form batch sizes: `sizesFrom B a n` is the list of batch sizes
produced when `a` tuples are already accumulated and `n` more arrive. -/
def sizesFrom (batchSize : Nat) : Nat → Nat → List Nat
  | a, 0 => if a > 0 then [a] else []
  | a, n + 1 => if a + 1 = batchSize then batchSize :: sizesFrom batchSize 0 n
                else sizesFrom batchSize (a + 1) n

/-- Embedding of `extractTableData` (cmd/data.go lines 649-724) at the
level of the chunks written to the output file: table comment, USE
statement, the batched insert statements, and a blank separator. -/
def extractTableData (batchSize : Nat) (plan : TableExtractionPlan)
    (tableRows : List (List SQLValue)) : List Str :=
  (chars ("-- Table: ") ++ plan.DatabaseName ++ ('.' :: plan.TableName) ++ chars ("\n")) ::
  (chars ("USE `") ++ plan.DatabaseName ++ chars ("`;\n")) ::
  insertStatementsFor batchSize plan.TableName (scannedRows plan tableRows) ++
  [chars ("\n")]

/-! ## Progress ledger (loadExtractionProgress / saveExtractionProgress, cmd/data.go lines 608-640) -/

/-- ASCII whitespace recognized by Go `unicode.IsSpace` (the non-ASCII
space code points are outside the claims and elided). -/
def isSpaceGo (c : Char) : Bool :=
  c == ' ' || c == '\t' || c == '\n' || c == '\x0b' || c == '\x0c' || c == '\r'

/-- Removes the longest all-whitespace suffix. -/
def dropTrailingSpaces : Str → Str
  | [] => []
  | c :: cs =>
    let r := dropTrailingSpaces cs
    if r = [] ∧ isSpaceGo c then [] else c :: r

/-- Models Go `strings.TrimSpace` (ASCII fragment). -/
def trimGo (s : Str) : Str := dropTrailingSpaces (s.dropWhile isSpaceGo)

/-- Models Go `strings.Split s (string sep)` for a one-character separator. -/
def splitGo (sep : Char) : Str → List Str
  | [] => [[]]
  | c :: cs =>
    if c = sep then [] :: splitGo sep cs
    else
      match splitGo sep cs with
      | [] => [[c]]
      | l :: ls => (c :: l) :: ls

/-- One fold step of `loadExtractionProgress`: trim the line, ignore it if
blank, otherwise insert it into the key set (modelled as a duplicate-free
list in first-appearance order). -/
def loadLine (acc : List Str) (line : Str) : List Str :=
  let l := trimGo line
  if l = [] then acc
  else if l ∈ acc then acc else acc ++ [l]

/-- Embedding of `loadExtractionProgress` (cmd/data.go lines 608-622): a
missing file yields the empty set; otherwise the file is split on
newlines, lines are trimmed, blank lines are ignored, and the rest form
the completed-key set. -/
def loadExtractionProgress (file : Option Str) : List Str :=
  match file with
  | none => []
  | some data => (splitGo '\n' data).foldl loadLine []

/-- Lexicographic byte order on keys, the order `sort.Strings` uses (for
UTF-8 data byte order and code-point order coincide). -/
def lexLe : Str → Str → Bool
  | [], _ => true
  | _ :: _, [] => false
  | a :: as, b :: bs => if a < b then true else if a = b then lexLe as bs else false

/-- Insertion into a sorted list. -/
def insertSorted (x : Str) : List Str → List Str
  | [] => [x]
  | y :: ys => if lexLe x y then x :: y :: ys else y :: insertSorted x ys

/-- Sorting of the key set, modelling `sort.Strings`; on a duplicate-free
key set every correct sort produces this same list. -/
def sortStrings : List Str → List Str := List.foldr insertSorted []

/-- The deduplicated, sorted key list `saveExtractionProgress` writes:
the loaded keys, plus the new key, sorted. -/
def savedKeys (file : Option Str) (key : Str) : List Str :=
  let keys := loadExtractionProgress file
  sortStrings (if key ∈ keys then keys else keys ++ [key])

/-- Embedding of `saveExtractionProgress` (cmd/data.go lines 624-640): the
whole ledger is rewritten as the sorted key set joined by newlines, with a
trailing newline. -/
def saveExtractionProgress (file : Option Str) (key : Str) : Str :=
  joinSep ['\n'] (savedKeys file key) ++ ['\n']

/-! ## Planner and whole-run control flow (cmd/data.go lines 141-306, 483-605) -/

/-- Embedding of `createTableExtractionPlans` (cmd/data.go lines 402-446).
The parsing of `table:count` directives into the sample map is abstracted
into the `sampleMap` parameter; `foreignKeys` is the per-table edge list.
Self-referencing edges are excluded from the dependencies. -/
def createTableExtractionPlans (dbName : Str) (tables : List Str)
    (foreignKeys : Str → List ForeignKeyInfo) (sampleMap : Str → Option Int)
    (samplePercent maxRows : Int) : List TableExtractionPlan :=
  tables.map (fun tableName =>
    { DatabaseName := dbName
      TableName := tableName
      RowCount := 0
      SampleSize :=
        match sampleMap tableName with
        | some c => c
        | none =>
          if 0 < samplePercent then -samplePercent
          else if 0 < maxRows then maxRows else 0
      WhereClause := []
      Dependencies :=
        ((foreignKeys tableName).filter (fun fk => fk.RefTableName != tableName)).map
          (fun fk => fk.RefTableName)
      Order := 0 })

/-- Embedding of `getTablesForDatabase` (cmd/data.go lines 308-336): the
introspector's base tables filtered by the pattern filter. -/
def getTablesForDatabase (includeTables excludeTables baseTables : List Str) : List Str :=
  baseTables.filter (fun t => shouldIncludeTable includeTables excludeTables t)

/-- Embedding of `createExtractionPlan` (cmd/data.go lines 273-306):
concatenate the per-database plans, then sort the combined list by
dependencies unless dependency checking is disabled. -/
def createExtractionPlan (tablesOf : Str → List Str)
    (fkOf : Str → Str → List ForeignKeyInfo) (noFkCheck : Bool)
    (includeTables excludeTables : List Str) (sampleMap : Str → Option Int)
    (samplePercent maxRows : Int) (databases : List Str) : List TableExtractionPlan :=
  let allPlans := databases.flatMap (fun dbName =>
    let tables := getTablesForDatabase includeTables excludeTables (tablesOf dbName)
    let fk : Str → List ForeignKeyInfo := if noFkCheck then (fun _ => []) else fkOf dbName
    createTableExtractionPlans dbName tables fk sampleMap samplePercent maxRows)
  if noFkCheck then allPlans else sortByDependencies allPlans

/-- The file header `executeExtractionPlan` writes on a fresh run
(cmd/data.go lines 517-525); the generation timestamp and source identity
are parameters. -/
def fileHeader (now source : Str) : List Str :=
  [ chars ("-- MariaDB Data Extract\n"),
    chars ("-- Generated on: ") ++ now ++ chars ("\n"),
    chars ("-- Source: ") ++ source ++ chars ("\n\n"),
    chars ("-- Disable foreign key checks for data import\n"),
    chars ("SET FOREIGN_KEY_CHECKS=0;\n\n") ]

/-- The footer written after the last table (cmd/data.go lines 593-595). -/
def fileFooter : List Str :=
  [ chars ("\n-- Re-enable foreign key checks\n"),
    chars ("SET FOREIGN_KEY_CHECKS=1;\n") ]

/-- The ledger key of a plan: `database.table`. -/
def tableKeyOf (plan : TableExtractionPlan) : Str :=
  plan.DatabaseName ++ ('.' :: plan.TableName)

/-- Embedding of `executeExtractionPlan` (cmd/data.go lines 483-605) at
the level of the chunks written to the output artifact: the header (unless
resuming onto a non-empty ledger), then per plan — skipped when its key is
already complete — the live row count is fetched, the sample size
resolved, and the table data extracted; finally the footer. -/
def executeExtractionPlan (batchSize : Nat) (rowCountOf : Str → Str → Int)
    (rowsOf : Str → Str → List (List SQLValue)) (completed : List Str) (resume : Bool)
    (now source : Str) (plans : List TableExtractionPlan) : List Str :=
  let headerPart := if resume = false ∨ completed = [] then fileHeader now source else []
  let body := plans.flatMap (fun plan =>
    if tableKeyOf plan ∈ completed then []
    else
      let rowCount := rowCountOf plan.DatabaseName plan.TableName
      let plan1 := resolveSampleSize plan rowCount
      extractTableData batchSize plan1 (rowsOf plan.DatabaseName plan.TableName))
  headerPart ++ body ++ fileFooter

/-- Outcome of a whole run: a fatal abort (log.Fatal) or the produced
artifact content. -/
inductive RunResult where
  | fatal : Str → RunResult
  | ok : List Str → RunResult
  deriving DecidableEq

/-- Embedding of `runDataExtraction` (cmd/data.go lines 141-200) from the
point where the database list has been discovered: an empty database list
is fatal; otherwise the plan is created and executed unconditionally —
there is no check on the number of planned tables. -/
def runDataExtraction (tablesOf : Str → List Str)
    (fkOf : Str → Str → List ForeignKeyInfo) (noFkCheck : Bool)
    (includeTables excludeTables : List Str) (sampleMap : Str → Option Int)
    (samplePercent maxRows : Int) (batchSize : Nat) (rowCountOf : Str → Str → Int)
    (rowsOf : Str → Str → List (List SQLValue)) (completed : List Str) (resume : Bool)
    (now source : Str) (databases : List Str) : RunResult :=
  if databases = [] then RunResult.fatal (chars ("No databases found to extract"))
  else
    let plan := createExtractionPlan tablesOf fkOf noFkCheck includeTables excludeTables
      sampleMap samplePercent maxRows databases
    RunResult.ok (executeExtractionPlan batchSize rowCountOf rowsOf completed resume
      now source plan)

/-! ## Concrete instances used by witnesses and counterexamples -/

/-- A plan carrying a 10 percent sampling directive. -/
def planPct : TableExtractionPlan :=
  { DatabaseName := chars ("db"), TableName := chars ("t"), RowCount := 0,
    SampleSize := -10, WhereClause := [], Dependencies := [], Order := 0 }

/-- Acyclic two-plan instance: table a depends on table b. -/
def planA : TableExtractionPlan :=
  { DatabaseName := chars ("db"), TableName := chars ("a"), RowCount := 0,
    SampleSize := 0, WhereClause := [], Dependencies := [chars ("b")], Order := 0 }

/-- Acyclic two-plan instance: table b has no dependencies. -/
def planB : TableExtractionPlan :=
  { DatabaseName := chars ("db"), TableName := chars ("b"), RowCount := 0,
    SampleSize := 0, WhereClause := [], Dependencies := [], Order := 0 }

/-- The acyclic instance a → b. -/
def acPlans : List TableExtractionPlan := [planA, planB]

/-- Cyclic instance: table b depending back on table a. -/
def planB2 : TableExtractionPlan :=
  { DatabaseName := chars ("db"), TableName := chars ("b"), RowCount := 0,
    SampleSize := 0, WhereClause := [], Dependencies := [chars ("a")], Order := 0 }

/-- The synthetic 2-cycle a → b, b → a. -/
def cycPlans : List TableExtractionPlan := [planA, planB2]

/-! # Theorems -/

/-! ## Arithmetic helpers for the 64-bit model -/

/-- Wrap is the identity on the int64 range. -/
theorem wrap64_eq_self {x : Int} (h0 : -(2 ^ 63) ≤ x) (h1 : x < 2 ^ 63) : wrap64 x = x := by
  unfold wrap64
  have hlo : 0 ≤ x + 2 ^ 63 := by omega
  have hhi : x + 2 ^ 63 < 2 ^ 64 := by omega
  rw [Int.emod_eq_of_lt hlo hhi]
  omega

/-! ## Claim C5: percentage resolution -/

/-- Claim C5: a plan whose SampleSize encodes a percentage P (SampleSize =
-P, 1 ≤ P ≤ 100) is resolved, immediately after the live row count is
stored, to SampleSize = floor(rowCount * P / 100) in exact integer
arithmetic (the int64 multiplication does not wrap on inputs below 2^63). -/
theorem c5_percentage_resolution (plan : TableExtractionPlan) (rowCount P : Int)
    (hS : plan.SampleSize = -P) (h1 : 1 ≤ P) (h100 : P ≤ 100)
    (hrc : 0 ≤ rowCount) (hof : rowCount * P < 2 ^ 63) :
    (resolveSampleSize plan rowCount).SampleSize = Int.fdiv (rowCount * P) 100 ∧
    (resolveSampleSize plan rowCount).RowCount = rowCount := by
  have hneg : plan.SampleSize < 0 := by omega
  have hP : wrap64 (- -P) = P := by
    rw [neg_neg]
    exact wrap64_eq_self (by omega) (by omega)
  have hprod : wrap64 (rowCount * P) = rowCount * P := by
    have hnn : 0 ≤ rowCount * P := mul_nonneg hrc (by omega)
    exact wrap64_eq_self (by omega) hof
  constructor
  · show (if h : _ then _ else _ : TableExtractionPlan).SampleSize = _
    rw [dif_pos]
    · simp only [hS, hP, hprod]
      rw [Int.tdiv_eq_ediv (mul_nonneg hrc (by omega)) (by decide)]
      rw [Int.fdiv_eq_ediv _ (by decide)]
    · simpa [resolveSampleSize] using hneg
  · unfold resolveSampleSize
    simp only [hS]
    rw [if_pos (by omega)]

/-- Witness for C5 at rowCount = 200 and a 10 percent directive: the
resolved sample size is 20. -/
theorem c5_percentage_resolution_witness : (resolveSampleSize planPct 200).SampleSize = 20 :=
  ((c5_percentage_resolution planPct 200 10 (by decide) (by decide) (by decide)
    (by decide) (by decide)).1).trans (by decide)

/-! ## Claim C10: tiny percentages resolve to 0, which means all rows -/

/-- Claim C10: when a percentage directive P satisfies rowCount * P < 100,
the resolved SampleSize is 0; since the LIMIT is attached only when
0 < SampleSize < RowCount, no LIMIT is attached and the scan returns every
row of the table. -/
theorem c10_small_percentage_extracts_all (plan : TableExtractionPlan) (rowCount P : Int)
    (hS : plan.SampleSize = -P) (h1 : 1 ≤ P) (h100 : P ≤ 100)
    (hrc : 0 ≤ rowCount) (hsmall : rowCount * P < 100) :
    (resolveSampleSize plan rowCount).SampleSize = 0 ∧
    queryLimit (resolveSampleSize plan rowCount) = none ∧
    ∀ tableRows, scannedRows (resolveSampleSize plan rowCount) tableRows = tableRows := by
  have hnn : 0 ≤ rowCount * P := mul_nonneg hrc (by omega)
  have hz : (resolveSampleSize plan rowCount).SampleSize = 0 := by
    have h := (c5_percentage_resolution plan rowCount P hS h1 h100 hrc (by omega)).1
    rw [h, Int.fdiv_eq_ediv _ (by decide)]
    exact Int.ediv_eq_zero_of_lt hnn hsmall
  refine ⟨hz, ?_, ?_⟩
  · unfold queryLimit
    rw [if_neg]
    omega
  · intro tableRows
    unfold scannedRows queryLimit
    rw [if_neg]
    omega

/-- Witness for C10: a 10 percent directive on a 5-row table resolves to
sample size 0, attaches no LIMIT, and the scan returns all rows. -/
theorem c10_small_percentage_extracts_all_witness :
    (resolveSampleSize planPct 5).SampleSize = 0 ∧
    queryLimit (resolveSampleSize planPct 5) = none ∧
    scannedRows (resolveSampleSize planPct 5) [[SQLValue.null]] = [[SQLValue.null]] := by
  have h := c10_small_percentage_extracts_all planPct 5 10 (by decide) (by decide)
    (by decide) (by decide) (by decide)
  exact ⟨h.1, h.2.1, h.2.2 [[SQLValue.null]]⟩

/-! ## Claim C3: the wildcard matcher is not anchored matching (code bug) -/

/-- Claim C3 fails on the code: `matchesPattern` is claimed to implement
anchored wildcard matching, but the code tests substring containment of a
mangled needle. At text = users, pattern = users (no wildcard at all) the
code returns false while anchored matching returns true; the code also
under-matches user_log against user_* and over-matches the name
xx^user_yy against user_*. -/
theorem c3_matchesPattern_diverges_from_anchored_glob :
    matchesPattern (chars ("users")) (chars ("users")) = false ∧
    globMatchSpec (chars ("users")) (chars ("users")) = true ∧
    matchesPattern (chars ("user_log")) (chars ("user_*")) = false ∧
    globMatchSpec (chars ("user_*")) (chars ("user_log")) = true ∧
    matchesPattern (chars ("xx^user_yy")) (chars ("user_*")) = true ∧
    globMatchSpec (chars ("user_*")) (chars ("xx^user_yy")) = false := by decide

/-! ## Claim C4: filter precedence example (broken by the matcher bug) -/

/-- Claim C4 fails on the code at its own example: with include = [user_*]
and exclude = [*_audit], the code excludes user_audit and order_log as the
claim states, but it also excludes user_log — the include pattern user_*
never matches because of the matcher bug — whereas the claim requires
user_log to be included; under the spec's anchored matching user_log does
match user_*. -/
theorem c4_filter_precedence_diverges :
    shouldIncludeTable [chars ("user_*")] [chars ("*_audit")] (chars ("user_audit")) = false ∧
    shouldIncludeTable [chars ("user_*")] [chars ("*_audit")] (chars ("user_log")) = false ∧
    shouldIncludeTable [chars ("user_*")] [chars ("*_audit")] (chars ("order_log")) = false ∧
    globMatchSpec (chars ("user_*")) (chars ("user_log")) = true := by decide

/-! ## Claim C7: the row serializer's escaping -/

/-- Single-character replacement on the empty string. -/
theorem replaceAll_single_nil (a : Char) (r : Str) : replaceAllL [] [a] r = [] := rfl

/-- Single-character replacement unfolds one character at a time. -/
theorem replaceAll_single_cons (a : Char) (r : Str) (c : Char) (s : Str) :
    replaceAllL (c :: s) [a] r = (if c = a then r else [c]) ++ replaceAllL s [a] r := by
  by_cases h : c = a <;>
    simp [replaceAllL, replaceFuel, hasPrefixL, h]

/-- Single-character replacement distributes over append. -/
theorem replaceAll_single_append (a : Char) (r : Str) (s t : Str) :
    replaceAllL (s ++ t) [a] r = replaceAllL s [a] r ++ replaceAllL t [a] r := by
  induction s with
  | nil => simp [replaceAll_single_nil]
  | cons c cs ih =>
    rw [List.cons_append, replaceAll_single_cons, replaceAll_single_cons, ih,
      List.append_assoc]

/-- The five sequential ReplaceAll calls act character-wise. -/
theorem escapeSQLString_cons (c : Char) (s : Str) :
    escapeSQLString (c :: s) = escapeSpecChar c ++ escapeSQLString s := by
  by_cases h1 : c = '\\'
  · simp [escapeSQLString, escapeSpecChar, h1, replaceAll_single_cons,
      replaceAll_single_append, replaceAll_single_nil]
  · by_cases h2 : c = '\''
    · simp [escapeSQLString, escapeSpecChar, h1, h2, replaceAll_single_cons,
        replaceAll_single_append, replaceAll_single_nil]
    · by_cases h3 : c = '\n'
      · simp [escapeSQLString, escapeSpecChar, h1, h2, h3, replaceAll_single_cons,
          replaceAll_single_append, replaceAll_single_nil]
      · by_cases h4 : c = '\r'
        · simp [escapeSQLString, escapeSpecChar, h1, h2, h3, h4, replaceAll_single_cons,
            replaceAll_single_append, replaceAll_single_nil]
        · by_cases h5 : c = '\t'
          · simp [escapeSQLString, escapeSpecChar, h1, h2, h3, h4, h5,
              replaceAll_single_cons, replaceAll_single_append, replaceAll_single_nil]
          · simp [escapeSQLString, escapeSpecChar, h1, h2, h3, h4, h5,
              replaceAll_single_cons]

/-- The implementation's escaping chain equals the spec's character table. -/
theorem escapeSQLString_eq_spec (s : Str) : escapeSQLString s = escapeSpec s := by
  induction s with
  | nil => rfl
  | cons c cs ih => rw [escapeSQLString_cons, ih]; simp [escapeSpec]

/-- Claim C7: the serializer maps nil to the bare token NULL and maps
string and byte values to single-quoted literals escaped per the spec's
character table; in particular the string O'Brien followed by a newline
serializes to 'O\'Brien\n' (with literal backslash escapes). -/
theorem c7_row_serializer :
    formatSQLValue SQLValue.null = chars ("NULL") ∧
    (∀ s, formatSQLValue (SQLValue.str s) = '\'' :: escapeSpec s ++ ['\'']) ∧
    (∀ s, formatSQLValue (SQLValue.bytes s) = '\'' :: escapeSpec s ++ ['\'']) ∧
    formatSQLValue (SQLValue.str ['O', '\'', 'B', 'r', 'i', 'e', 'n', '\n']) =
      ['\'', 'O', '\\', '\'', 'B', 'r', 'i', 'e', 'n', '\\', 'n', '\''] := by
  refine ⟨rfl, ?_, ?_, by decide⟩
  · intro s
    show '\'' :: escapeSQLString s ++ ['\''] = _
    rw [escapeSQLString_eq_spec]
  · intro s
    show '\'' :: escapeSQLString s ++ ['\''] = _
    rw [escapeSQLString_eq_spec]

/-! ## Claim C6: batch boundaries -/

/-- The batching loop's emitted sizes, as a function of the accumulator
length and the number of remaining tuples. -/
theorem insertBatches_sizes (B : Nat) (ts : List Str) :
    ∀ acc : List Str, acc.length < B →
      (insertBatches B acc ts).map List.length = sizesFrom B acc.length ts.length := by
  induction ts with
  | nil =>
    intro acc h
    by_cases hp : acc.length > 0 <;> simp [insertBatches, sizesFrom, hp]
  | cons t ts ih =>
    intro acc h
    have hlen : (acc ++ [t]).length = acc.length + 1 := by simp
    by_cases hfull : B ≤ (acc ++ [t]).length
    · have heq : acc.length + 1 = B := by omega
      simp only [insertBatches, if_pos hfull, List.map_cons]
      rw [ih [] (by simp only [List.length_nil]; omega)]
      simp only [hlen, List.length_nil, List.length_cons, sizesFrom, heq]
      simp
    · have hlt : acc.length + 1 < B := by omega
      simp only [insertBatches, if_neg hfull]
      rw [ih (acc ++ [t]) (by omega)]
      simp only [hlen, List.length_cons, sizesFrom]
      rw [if_neg (by omega)]

/-- Unrolling of `sizesFrom` into its fill-the-first-batch form. -/
theorem sizesFrom_fill (B : Nat) :
    ∀ n a, a < B → sizesFrom B a n =
      if n + a < B then (if n + a = 0 then [] else [n + a])
      else B :: sizesFrom B 0 (n + a - B) := by
  intro n
  induction n with
  | zero =>
    intro a ha
    simp only [sizesFrom, Nat.zero_add]
    rw [if_pos ha]
    by_cases h : a = 0
    · simp [h]
    · rw [if_pos (Nat.pos_of_ne_zero h), if_neg h]
  | succ n ih =>
    intro a ha
    by_cases hfull : a + 1 = B
    · simp only [sizesFrom, if_pos hfull]
      rw [if_neg (by omega)]
      have he : n + 1 + a - B = n := by omega
      rw [he]
    · simp only [sizesFrom, if_neg hfull]
      rw [ih (a + 1) (by omega)]
      have h1 : n + (a + 1) = n + 1 + a := by omega
      rw [h1]

/-- Closed form of the emitted batch sizes on an empty accumulator:
floor(n / B) full batches and one remainder batch when B does not divide n. -/
theorem sizesFrom_closed (B : Nat) (hB : 1 ≤ B) :
    ∀ n, sizesFrom B 0 n =
      List.replicate (n / B) B ++ (if n % B = 0 then [] else [n % B]) := by
  intro n
  induction n using Nat.strong_induction_on with
  | _ n ih =>
    rw [sizesFrom_fill B n 0 (by omega)]
    by_cases hlt : n + 0 < B
    · have hd : n / B = 0 := Nat.div_eq_of_lt (by omega)
      have hm : n % B = n := Nat.mod_eq_of_lt (by omega)
      rw [if_pos hlt, hd, hm]
      by_cases hz : n = 0
      · simp [hz]
      · simp only [List.replicate_zero, List.nil_append, if_neg hz]
        rw [if_neg (by omega)]
        simp
    · have hB' : B ≤ n := by omega
      rw [if_neg hlt, ih (n + 0 - B) (by omega)]
      have hd : n / B = (n - B) / B + 1 := Nat.div_eq_sub_div (by omega) hB'
      have hm : n % B = (n - B) % B := Nat.mod_eq_sub_mod hB'
      have hn0 : n + 0 - B = n - B := by omega
      rw [hn0, hd, hm, List.replicate_succ, List.cons_append]

/-- Ceiling division via floor and remainder. -/
theorem ceilDiv_eq (N B : Nat) (hB : 1 ≤ B) :
    (N + B - 1) / B = N / B + (if N % B = 0 then 0 else 1) := by
  have hmod := Nat.mod_lt N (show 0 < B by omega)
  have hsplit := Nat.div_add_mod N B
  by_cases h : N % B = 0
  · have hq : N + B - 1 = B * (N / B) + (B - 1) := by omega
    rw [if_pos h, hq, Nat.mul_add_div (show 0 < B by omega),
      Nat.div_eq_of_lt (show B - 1 < B by omega)]
  · have hexp : B * (N / B + 1) = B * (N / B) + B := by ring
    have hq : N + B - 1 = B * (N / B + 1) + (N % B - 1) := by omega
    rw [if_neg h, hq, Nat.mul_add_div (show 0 < B by omega),
      Nat.div_eq_of_lt (show N % B - 1 < B by omega)]

/-- Claim C6: with batch size B at least 1 and N fetched rows, the batching
loop emits batches of exactly B tuples plus one remainder batch of
N mod B tuples when B does not divide N, so the executor emits exactly
ceil(N / B) insert statements for the table. -/
theorem c6_batch_boundary (B : Nat) (hB : 1 ≤ B) (tableName : Str)
    (rows : List (List SQLValue)) :
    (insertBatches B [] (rows.map mkRowTuple)).map List.length =
      List.replicate (rows.length / B) B ++
        (if rows.length % B = 0 then [] else [rows.length % B]) ∧
    (insertStatementsFor B tableName rows).length = (rows.length + B - 1) / B := by
  have hsizes : (insertBatches B [] (rows.map mkRowTuple)).map List.length =
      List.replicate (rows.length / B) B ++
        (if rows.length % B = 0 then [] else [rows.length % B]) := by
    rw [insertBatches_sizes B (rows.map mkRowTuple) [] (by simp only [List.length_nil]; omega)]
    simp only [List.length_nil, List.length_map]
    exact sizesFrom_closed B hB rows.length
  refine ⟨hsizes, ?_⟩
  have hlen : (insertStatementsFor B tableName rows).length =
      ((insertBatches B [] (rows.map mkRowTuple)).map List.length).length := by
    simp [insertStatementsFor]
  rw [hlen, hsizes, ceilDiv_eq rows.length B hB]
  by_cases h : rows.length % B = 0 <;> simp [h]

/-- Witness for C6 at batch size 2 with 5 rows: sizes 2, 2, 1 and exactly
3 insert statements. -/
theorem c6_batch_boundary_witness :
    (insertBatches 2 [] ((List.replicate 5 [SQLValue.null]).map mkRowTuple)).map List.length =
      [2, 2, 1] ∧
    (insertStatementsFor 2 (chars ("t")) (List.replicate 5 [SQLValue.null])).length = 3 := by
  have h := c6_batch_boundary 2 (by decide) (chars ("t")) (List.replicate 5 [SQLValue.null])
  exact ⟨h.1.trans (by decide), h.2.trans (by decide)⟩

/-! ## Claim C8: the progress ledger -/

/-- Splitting never yields the empty list of parts. -/
theorem splitGo_ne_nil (sep : Char) (s : Str) : splitGo sep s ≠ [] := by
  cases s with
  | nil => simp [splitGo]
  | cons c cs =>
    by_cases h : c = sep
    · simp [splitGo, h]
    · simp only [splitGo, if_neg h]
      cases splitGo sep cs <;> simp

/-- Parts of a split never contain the separator. -/
theorem mem_splitGo_not_sep (sep : Char) (s : Str) :
    ∀ l ∈ splitGo sep s, sep ∉ l := by
  induction s with
  | nil =>
    intro l hl
    simp only [splitGo, List.mem_singleton] at hl
    simp [hl]
  | cons c cs ih =>
    intro l hl
    by_cases h : c = sep
    · simp only [splitGo, if_pos h, List.mem_cons] at hl
      rcases hl with hl | hl
      · simp [hl]
      · exact ih l hl
    · cases hsp : splitGo sep cs with
      | nil => exact absurd hsp (splitGo_ne_nil sep cs)
      | cons m ms =>
        simp only [splitGo, if_neg h, hsp, List.mem_cons] at hl
        rcases hl with hl | hl
        · subst hl
          intro hmem
          rcases List.mem_cons.1 hmem with hmem | hmem
          · exact h hmem.symm
          · exact ih m (by rw [hsp]; exact List.mem_cons_self m ms) hmem
        · exact ih l (by rw [hsp]; exact List.mem_cons_of_mem m hl)

/-- A separator-free string splits into itself alone. -/
theorem splitGo_sepfree (sep : Char) (l : Str) (h : sep ∉ l) : splitGo sep l = [l] := by
  induction l with
  | nil => rfl
  | cons c cs ih =>
    have hc : ¬ c = sep := fun hc => h (by simp [hc])
    have ih' := ih (fun hm => h (List.mem_cons_of_mem c hm))
    simp only [splitGo, if_neg hc, ih']

/-- Splitting walks past a separator-free prefix. -/
theorem splitGo_append_sep (sep : Char) (l r : Str) (h : sep ∉ l) :
    splitGo sep (l ++ sep :: r) = l :: splitGo sep r := by
  induction l with
  | nil => simp [splitGo]
  | cons c cs ih =>
    have hc : ¬ c = sep := fun hc => h (by simp [hc])
    have ih' := ih (fun hm => h (List.mem_cons_of_mem c hm))
    simp only [List.cons_append, splitGo, if_neg hc, List.append_eq, ih']

/-- Joining then splitting recovers the lines when none contains the
separator. -/
theorem splitGo_joinSep (sep : Char) (lines : List Str) (hne : lines ≠ [])
    (hfree : ∀ l ∈ lines, sep ∉ l) :
    splitGo sep (joinSep [sep] lines) = lines := by
  induction lines with
  | nil => exact absurd rfl hne
  | cons l ls ih =>
    cases ls with
    | nil =>
      rw [joinSep]
      exact splitGo_sepfree sep l (hfree l (List.mem_cons_self l []))
    | cons l2 ls2 =>
      rw [joinSep, List.append_assoc, List.singleton_append,
        splitGo_append_sep sep l _ (hfree l (List.mem_cons_self l _)),
        ih (by simp) (fun m hm => hfree m (List.mem_cons_of_mem l hm))]

/-- Appending one separator to a join is joining with one extra empty line. -/
theorem joinSep_concat_nil (sep : Char) (lines : List Str) (hne : lines ≠ []) :
    joinSep [sep] lines ++ [sep] = joinSep [sep] (lines ++ [[]]) := by
  induction lines with
  | nil => exact absurd rfl hne
  | cons l ls ih =>
    cases ls with
    | nil => simp [joinSep]
    | cons l2 ls2 =>
      have ih' := ih (by simp)
      rw [joinSep, List.cons_append, List.cons_append, joinSep,
        List.append_assoc, List.append_assoc, ih']
      simp

/-- The saved content splits into the written lines plus one trailing
empty line. -/
theorem splitGo_joinSep_newline (sep : Char) (lines : List Str) (hne : lines ≠ [])
    (hfree : ∀ l ∈ lines, sep ∉ l) :
    splitGo sep (joinSep [sep] lines ++ [sep]) = lines ++ [[]] := by
  rw [joinSep_concat_nil sep lines hne]
  refine splitGo_joinSep sep (lines ++ [[]]) (by simp) ?_
  intro l hl
  rcases List.mem_append.1 hl with hl | hl
  · exact hfree l hl
  · simp at hl
    simp [hl]

/-- Characters surviving the trailing trim come from the input. -/
theorem mem_dropTrailingSpaces (l : Str) : ∀ x ∈ dropTrailingSpaces l, x ∈ l := by
  induction l with
  | nil => simp [dropTrailingSpaces]
  | cons c cs ih =>
    intro x hx
    simp only [dropTrailingSpaces] at hx
    by_cases h : dropTrailingSpaces cs = [] ∧ isSpaceGo c = true
    · rw [if_pos h] at hx
      simp at hx
    · rw [if_neg h] at hx
      rcases List.mem_cons.1 hx with hx | hx
      · simp [hx]
      · exact List.mem_cons_of_mem c (ih x hx)

/-- The trailing trim is idempotent. -/
theorem dropTrailingSpaces_idem (l : Str) :
    dropTrailingSpaces (dropTrailingSpaces l) = dropTrailingSpaces l := by
  induction l with
  | nil => rfl
  | cons c cs ih =>
    simp only [dropTrailingSpaces]
    by_cases h : dropTrailingSpaces cs = [] ∧ isSpaceGo c = true
    · rw [if_pos h]
      rfl
    · rw [if_neg h]
      simp only [dropTrailingSpaces, ih]
      rw [if_neg h]

/-- Dropping leading whitespace is idempotent. -/
theorem dropWhileSpace_idem (l : Str) :
    (l.dropWhile isSpaceGo).dropWhile isSpaceGo = l.dropWhile isSpaceGo := by
  induction l with
  | nil => rfl
  | cons c cs ih =>
    by_cases h : isSpaceGo c
    · simp only [List.dropWhile_cons, h]
      exact ih
    · simp only [List.dropWhile_cons, h]
      simp [h]

/-- The head of a dropWhile result fails the predicate. -/
theorem dropWhile_head_false {p : Char → Bool} (l t : Str) (c : Char)
    (h : l.dropWhile p = c :: t) : p c = false := by
  induction l with
  | nil => simp at h
  | cons a as ih =>
    by_cases ha : p a
    · simp only [List.dropWhile_cons, ha] at h
      exact ih h
    · simp only [List.dropWhile_cons, ha] at h
      simp at h
      rw [← h.1]
      simp [ha]

/-- The trailing trim keeps the head character (or empties the string). -/
theorem dropTrailingSpaces_head (c : Char) (cs : Str) :
    dropTrailingSpaces (c :: cs) = [] ∨
      ∃ t, dropTrailingSpaces (c :: cs) = c :: t := by
  simp only [dropTrailingSpaces]
  by_cases h : dropTrailingSpaces cs = [] ∧ isSpaceGo c = true
  · rw [if_pos h]
    exact Or.inl rfl
  · rw [if_neg h]
    exact Or.inr ⟨dropTrailingSpaces cs, rfl⟩

/-- Trimming is idempotent. -/
theorem trimGo_idem (l : Str) : trimGo (trimGo l) = trimGo l := by
  unfold trimGo
  cases hm : l.dropWhile isSpaceGo with
  | nil => rfl
  | cons c cs =>
    have hc : isSpaceGo c = false := dropWhile_head_false l cs c hm
    rcases dropTrailingSpaces_head c cs with hz | ⟨t, ht⟩
    · rw [hz]
      rfl
    · rw [ht]
      have hdw : (c :: t).dropWhile isSpaceGo = c :: t := by
        simp [List.dropWhile_cons, hc]
      rw [hdw, ← ht, dropTrailingSpaces_idem]

/-- Characters surviving a trim come from the input. -/
theorem mem_trimGo (l : Str) : ∀ x ∈ trimGo l, x ∈ l := by
  intro x hx
  have h1 := mem_dropTrailingSpaces (l.dropWhile isSpaceGo) x hx
  exact (List.dropWhile_sublist isSpaceGo).subset h1

/-- Keys produced by the loader: trimmed, non-blank, newline-free. -/
def wfKey (k : Str) : Prop := k ≠ [] ∧ trimGo k = k ∧ '\n' ∉ k

/-- Every key the loader returns from any file content is well-formed, and
the returned key list has no duplicates. -/
theorem loadFold_wf (lines : List Str) (hfree : ∀ l ∈ lines, '\n' ∉ l) :
    ∀ acc : List Str, (∀ x ∈ acc, wfKey x) → acc.Nodup →
      (∀ x ∈ lines.foldl loadLine acc, wfKey x) ∧ (lines.foldl loadLine acc).Nodup := by
  induction lines with
  | nil => intro acc h hd; exact ⟨h, hd⟩
  | cons l ls ih =>
    intro acc hacc hd
    have hfree' : ∀ m ∈ ls, '\n' ∉ m := fun m hm => hfree m (List.mem_cons_of_mem l hm)
    have hl : '\n' ∉ l := hfree l (List.mem_cons_self l ls)
    rw [List.foldl_cons]
    by_cases hz : trimGo l = []
    · have : loadLine acc l = acc := by simp [loadLine, hz]
      rw [this]
      exact ih hfree' acc hacc hd
    · by_cases hmem : trimGo l ∈ acc
      · have : loadLine acc l = acc := by
          simp only [loadLine]
          rw [if_neg hz, if_pos hmem]
        rw [this]
        exact ih hfree' acc hacc hd
      · have : loadLine acc l = acc ++ [trimGo l] := by
          simp only [loadLine]
          rw [if_neg hz, if_neg hmem]
        rw [this]
        refine ih hfree' (acc ++ [trimGo l]) ?_ ?_
        · intro x hx
          rcases List.mem_append.1 hx with hx | hx
          · exact hacc x hx
          · simp at hx
            subst hx
            refine ⟨hz, trimGo_idem l, fun hn => hl (mem_trimGo l '\n' hn)⟩
        · simp [List.nodup_append, hd, hmem]

/-- Loading a line list of well-formed, duplicate-free keys starting from
an accumulator appends exactly the keys not already present. -/
theorem loadFold_keys (keys : List Str) (hwf : ∀ k ∈ keys, wfKey k) (hnd : keys.Nodup) :
    ∀ acc : List Str,
      keys.foldl loadLine acc = acc ++ keys.filter (fun k => decide (k ∉ acc)) := by
  induction keys with
  | nil => intro acc; simp
  | cons k ks ih =>
    intro acc
    have hk := hwf k (List.mem_cons_self k ks)
    have hwf' : ∀ m ∈ ks, wfKey m := fun m hm => hwf m (List.mem_cons_of_mem k hm)
    have hnd' : ks.Nodup := hnd.of_cons
    have hknotin : k ∉ ks := (List.nodup_cons.1 hnd).1
    rw [List.foldl_cons]
    by_cases hmem : k ∈ acc
    · have hstep : loadLine acc k = acc := by
        simp only [loadLine]
        rw [hk.2.1, if_neg hk.1, if_pos hmem]
      rw [hstep, ih hwf' hnd' acc, List.filter_cons]
      simp [hmem]
    · have hstep : loadLine acc k = acc ++ [k] := by
        simp only [loadLine]
        rw [hk.2.1, if_neg hk.1, if_neg hmem]
      rw [hstep, ih hwf' hnd' (acc ++ [k]), List.filter_cons, if_pos (by simp [hmem])]
      have hfc : ks.filter (fun m => decide (m ∉ acc ++ [k])) =
          ks.filter (fun m => decide (m ∉ acc)) := by
        refine List.filter_congr ?_
        intro m hm
        have : m ≠ k := fun he => hknotin (he ▸ hm)
        simp [List.mem_append, this]
      rw [hfc, List.append_assoc]
      simp

/-- Loading a well-formed, duplicate-free line list from scratch returns
exactly those lines. -/
theorem loadFold_self (keys : List Str) (hwf : ∀ k ∈ keys, wfKey k) (hnd : keys.Nodup) :
    keys.foldl loadLine [] = keys := by
  rw [loadFold_keys keys hwf hnd []]
  simp

/-- The key order is total. -/
theorem lexLe_total : ∀ a b : Str, lexLe a b = true ∨ lexLe b a = true := by
  intro a
  induction a with
  | nil => intro b; left; rfl
  | cons x xs ih =>
    intro b
    cases b with
    | nil => right; rfl
    | cons y ys =>
      rcases lt_trichotomy x y with h | h | h
      · left; simp [lexLe, h]
      · subst h
        rcases ih ys with hh | hh
        · left; simp [lexLe, lt_irrefl, hh]
        · right; simp [lexLe, lt_irrefl, hh]
      · right; simp [lexLe, h]

/-- The key order is transitive. -/
theorem lexLe_trans : ∀ a b c : Str, lexLe a b = true → lexLe b c = true →
    lexLe a c = true := by
  intro a
  induction a with
  | nil => intro b c _ _; rfl
  | cons x xs ih =>
    intro b c hab hbc
    cases b with
    | nil => simp [lexLe] at hab
    | cons y ys =>
      cases c with
      | nil => simp [lexLe] at hbc
      | cons z zs =>
        simp only [lexLe] at hab hbc ⊢
        by_cases hxy : x < y
        · by_cases hyz : y < z
          · rw [if_pos (lt_trans hxy hyz)]
          · rw [if_neg hyz] at hbc
            by_cases hyz2 : y = z
            · rw [if_pos (hyz2 ▸ hxy)]
            · rw [if_neg hyz2] at hbc
              exact absurd hbc (by simp)
        · rw [if_neg hxy] at hab
          by_cases hxy2 : x = y
          · rw [if_pos hxy2] at hab
            subst hxy2
            by_cases hyz : x < z
            · rw [if_pos hyz]
            · rw [if_neg hyz] at hbc ⊢
              by_cases hyz2 : x = z
              · rw [if_pos hyz2] at hbc ⊢
                exact ih ys zs hab hbc
              · rw [if_neg hyz2] at hbc
                exact absurd hbc (by simp)
          · rw [if_neg hxy2] at hab
            exact absurd hab (by simp)

/-- Sorted insertion permutes the extended list. -/
theorem insertSorted_perm (x : Str) (l : List Str) : (insertSorted x l).Perm (x :: l) := by
  induction l with
  | nil => exact List.Perm.refl _
  | cons y ys ih =>
    by_cases h : lexLe x y
    · simp only [insertSorted, if_pos h]
      exact List.Perm.refl _
    · simp only [insertSorted, if_neg h]
      exact (ih.cons y).trans (List.Perm.swap x y ys)

/-- Sorting permutes the input. -/
theorem sortStrings_perm (l : List Str) : (sortStrings l).Perm l := by
  induction l with
  | nil => exact List.Perm.refl _
  | cons x xs ih =>
    show (insertSorted x (sortStrings xs)).Perm (x :: xs)
    exact (insertSorted_perm x (sortStrings xs)).trans (ih.cons x)

/-- Sorted insertion preserves sortedness. -/
theorem insertSorted_pairwise (x : Str) (l : List Str)
    (h : l.Pairwise (fun a b => lexLe a b = true)) :
    (insertSorted x l).Pairwise (fun a b => lexLe a b = true) := by
  induction l with
  | nil => simp [insertSorted]
  | cons y ys ih =>
    rcases List.pairwise_cons.1 h with ⟨hy, hys⟩
    by_cases hxy : lexLe x y
    · simp only [insertSorted, if_pos hxy]
      refine List.pairwise_cons.2 ⟨?_, h⟩
      intro z hz
      rcases List.mem_cons.1 hz with hz | hz
      · exact hz ▸ hxy
      · exact lexLe_trans x y z hxy (hy z hz)
    · have hyx : lexLe y x = true := by
        rcases lexLe_total x y with hh | hh
        · exact absurd hh hxy
        · exact hh
      simp only [insertSorted, if_neg hxy]
      refine List.pairwise_cons.2 ⟨?_, ih hys⟩
      intro z hz
      have hz' := (insertSorted_perm x ys).mem_iff.1 hz
      rcases List.mem_cons.1 hz' with hz' | hz'
      · exact hz' ▸ hyx
      · exact hy z hz'

/-- Sorting produces a sorted list. -/
theorem sortStrings_pairwise (l : List Str) :
    (sortStrings l).Pairwise (fun a b => lexLe a b = true) := by
  induction l with
  | nil => simp [sortStrings]
  | cons x xs ih => exact insertSorted_pairwise x (sortStrings xs) ih

/-- Loader output on arbitrary file content is well-formed and
duplicate-free. -/
theorem load_wf_nodup (s : Str) :
    (∀ x ∈ loadExtractionProgress (some s), wfKey x) ∧
      (loadExtractionProgress (some s)).Nodup := by
  unfold loadExtractionProgress
  exact loadFold_wf (splitGo '\n' s) (mem_splitGo_not_sep '\n' s) [] (by simp) (by simp)

/-- Membership in the written key list. -/
theorem mem_savedKeys (f : Option Str) (k : Str) :
    ∀ x, x ∈ savedKeys f k ↔ x ∈ loadExtractionProgress f ∨ x = k := by
  intro x
  unfold savedKeys
  rw [(sortStrings_perm _).mem_iff]
  by_cases h : k ∈ loadExtractionProgress f
  · rw [if_pos h]
    constructor
    · exact Or.inl
    · rintro (hx | hx)
      · exact hx
      · exact hx ▸ h
  · rw [if_neg h]
    simp [List.mem_append]

/-- The written key list is well-formed, duplicate-free and non-empty. -/
theorem savedKeys_wf (f : Option Str) (k : Str) (hk : wfKey k) :
    (∀ x ∈ savedKeys f k, wfKey x) ∧ (savedKeys f k).Nodup ∧ savedKeys f k ≠ [] := by
  have hwf : ∀ x ∈ savedKeys f k, wfKey x := by
    intro x hx
    rcases (mem_savedKeys f k x).1 hx with hx | hx
    · cases f with
      | none => simp [loadExtractionProgress] at hx
      | some s => exact (load_wf_nodup s).1 x hx
    · exact hx ▸ hk
  refine ⟨hwf, ?_, ?_⟩
  · unfold savedKeys
    refine (sortStrings_perm _).nodup_iff.2 ?_
    by_cases h : k ∈ loadExtractionProgress f
    · rw [if_pos h]
      cases f with
      | none => simp [loadExtractionProgress]
      | some s => exact (load_wf_nodup s).2
    · rw [if_neg h]
      have hnd : (loadExtractionProgress f).Nodup := by
        cases f with
        | none => simp [loadExtractionProgress]
        | some s => exact (load_wf_nodup s).2
      simp [List.nodup_append, hnd, h]
  · intro hnil
    have : k ∈ savedKeys f k := (mem_savedKeys f k k).2 (Or.inr rfl)
    rw [hnil] at this
    exact absurd this (List.not_mem_nil k)

/-- A blank line is absorbed by the loader. -/
theorem loadLine_nil (acc : List Str) : loadLine acc [] = acc := rfl

/-- Claim C8 (amended): for a key that is non-blank, trimmed and
newline-free, markComplete rewrites the ledger so that a subsequent load
returns exactly the prior key set plus the key; the file stores one key
per line, deduplicated and sorted, with keys only ever added; a missing
file loads as the empty set and blank lines are ignored. -/
theorem c8_ledger_roundtrip (f : Option Str) (k : Str) (hk : wfKey k) :
    loadExtractionProgress none = [] ∧
    (∀ data, loadExtractionProgress (some ('\n' :: data)) =
      loadExtractionProgress (some data)) ∧
    splitGo '\n' (saveExtractionProgress f k) = savedKeys f k ++ [[]] ∧
    (savedKeys f k).Pairwise (fun a b => lexLe a b = true) ∧
    (savedKeys f k).Nodup ∧
    loadExtractionProgress (some (saveExtractionProgress f k)) = savedKeys f k ∧
    (∀ x, x ∈ loadExtractionProgress (some (saveExtractionProgress f k)) ↔
      x ∈ loadExtractionProgress f ∨ x = k) ∧
    (∀ x ∈ loadExtractionProgress f,
      x ∈ loadExtractionProgress (some (saveExtractionProgress f k))) := by
  obtain ⟨hwf, hnd, hne⟩ := savedKeys_wf f k hk
  have hfree : ∀ l ∈ savedKeys f k, '\n' ∉ l := fun l hl => (hwf l hl).2.2
  have hsplit : splitGo '\n' (saveExtractionProgress f k) = savedKeys f k ++ [[]] := by
    unfold saveExtractionProgress
    exact splitGo_joinSep_newline '\n' (savedKeys f k) hne hfree
  have hload : loadExtractionProgress (some (saveExtractionProgress f k)) = savedKeys f k := by
    show (splitGo '\n' (saveExtractionProgress f k)).foldl loadLine [] = savedKeys f k
    rw [hsplit, List.foldl_append, loadFold_self (savedKeys f k) hwf hnd]
    simp [loadLine_nil]
  refine ⟨rfl, ?_, hsplit, sortStrings_pairwise _, hnd, hload, ?_, ?_⟩
  · intro data
    show (splitGo '\n' ('\n' :: data)).foldl loadLine [] = _
    have : splitGo '\n' ('\n' :: data) = [] :: splitGo '\n' data := by
      simp [splitGo]
    rw [this, List.foldl_cons, loadLine_nil]
    rfl
  · intro x
    rw [hload]
    exact mem_savedKeys f k x
  · intro x hx
    rw [hload]
    exact (mem_savedKeys f k x).2 (Or.inl hx)

/-- Counterexample to C8 as stated for arbitrary keys: marking the key
composed of a, newline, b yields a ledger from which load returns the two
keys a and b — not the prior set united with the given key. -/
theorem c8_ledger_counterexample :
    chars ("a") ∈ loadExtractionProgress (some (saveExtractionProgress none ['a', '\n', 'b'])) ∧
    chars ("a") ∉ loadExtractionProgress none ∧
    chars ("a") ≠ ['a', '\n', 'b'] := by decide

/-- Witness for C8: saving key db.a over a ledger containing db.b loads
back as the sorted pair db.a, db.b. -/
theorem c8_ledger_roundtrip_witness :
    loadExtractionProgress
      (some (saveExtractionProgress (some (chars ("db.b\n"))) (chars ("db.a")))) =
      [chars ("db.a"), chars ("db.b")] :=
  ((c8_ledger_roundtrip (some (chars ("db.b\n"))) (chars ("db.a"))
    (by refine ⟨by decide, by decide, by decide⟩)).2.2.2.2.2.1).trans (by decide)

/-! ## Claim C9: zero tables discovered is not planning-fatal -/

/-- Counterexample to C9: with one requested database and zero discovered
tables the run does not abort — it completes and writes a non-empty
artifact consisting of the header and the footer. -/
theorem c9_zero_tables_counterexample :
    runDataExtraction (fun _ => []) (fun _ _ => []) false [] [] (fun _ => none) 0 0 100
      (fun _ _ => 0) (fun _ _ => []) [] false [] [] [chars ("d")] =
      RunResult.ok (fileHeader [] [] ++ fileFooter) ∧
    fileHeader [] [] ++ fileFooter ≠ [] := by decide

/-- Lists flat-mapped to nothing vanish. -/
theorem flatMap_nil_of_forall {α β : Type} (l : List α) (f : α → List β)
    (h : ∀ x ∈ l, f x = []) : l.flatMap f = [] := by
  induction l with
  | nil => rfl
  | cons a as ih =>
    rw [List.flatMap_cons, h a (List.mem_cons_self a as),
      ih (fun x hx => h x (List.mem_cons_of_mem a hx))]
    rfl

/-- Claim C9 (amended): only an empty database list aborts the run before
extraction; when databases exist but zero tables are discovered across all
of them, the run completes without any per-table extraction and still
produces artifact content, namely the header and footer on a fresh run. -/
theorem c9_zero_tables_amended (tablesOf : Str → List Str)
    (fkOf : Str → Str → List ForeignKeyInfo) (noFkCheck : Bool)
    (includeTables excludeTables : List Str) (sampleMap : Str → Option Int)
    (samplePercent maxRows : Int) (batchSize : Nat) (rowCountOf : Str → Str → Int)
    (rowsOf : Str → Str → List (List SQLValue)) (completed : List Str)
    (now source : Str) (databases : List Str)
    (hne : databases ≠ []) (hzero : ∀ db ∈ databases, tablesOf db = []) :
    runDataExtraction tablesOf fkOf noFkCheck includeTables excludeTables sampleMap
      samplePercent maxRows batchSize rowCountOf rowsOf completed false now source [] =
      RunResult.fatal (chars ("No databases found to extract")) ∧
    runDataExtraction tablesOf fkOf noFkCheck includeTables excludeTables sampleMap
      samplePercent maxRows batchSize rowCountOf rowsOf completed false now source
      databases = RunResult.ok (fileHeader now source ++ fileFooter) := by
  constructor
  · rfl
  · have hplan : createExtractionPlan tablesOf fkOf noFkCheck includeTables excludeTables
        sampleMap samplePercent maxRows databases = [] := by
      unfold createExtractionPlan
      have hbody : databases.flatMap (fun dbName =>
          let tables := getTablesForDatabase includeTables excludeTables (tablesOf dbName)
          let fk : Str → List ForeignKeyInfo :=
            if noFkCheck then (fun _ => []) else fkOf dbName
          createTableExtractionPlans dbName tables fk sampleMap samplePercent maxRows) =
          [] := by
        refine flatMap_nil_of_forall _ _ ?_
        intro db hdb
        simp only [getTablesForDatabase, hzero db hdb, List.filter_nil,
          createTableExtractionPlans, List.map_nil]
      rw [hbody]
      cases noFkCheck <;> rfl
    unfold runDataExtraction
    rw [if_neg hne, hplan]
    rfl

/-- Witness for C9's amended statement at one database named d with no
tables. -/
theorem c9_zero_tables_amended_witness :
    runDataExtraction (fun _ => []) (fun _ _ => []) true [] [] (fun _ => none) 0 0 50
      (fun _ _ => 0) (fun _ _ => []) [] false [] [] [] =
      RunResult.fatal (chars ("No databases found to extract")) ∧
    runDataExtraction (fun _ => []) (fun _ _ => []) true [] [] (fun _ => none) 0 0 50
      (fun _ _ => 0) (fun _ _ => []) [] false [] [] [chars ("d")] =
      RunResult.ok (fileHeader [] [] ++ fileFooter) :=
  c9_zero_tables_amended (fun _ => []) (fun _ _ => []) true [] [] (fun _ => none) 0 0 50
    (fun _ _ => 0) (fun _ _ => []) [] [] [] [chars ("d")] (by simp) (fun _ _ => rfl)

/-! ## Claims C1 and C2: the dependency resolver -/

/-- A successful plan lookup pins the plan's name. -/
theorem findPlan_some_name {plans : List TableExtractionPlan} {name : Str}
    {p : TableExtractionPlan} (h : findPlan plans name = some p) : p.TableName = name := by
  have := List.find?_some h
  simpa using this

/-- A successful plan lookup finds a member of the input. -/
theorem findPlan_some_mem {plans : List TableExtractionPlan} {name : Str}
    {p : TableExtractionPlan} (h : findPlan plans name = some p) : p ∈ plans :=
  List.mem_of_find?_eq_some h

/-- A name with a plan is a touchable name. -/
theorem findPlan_some_mem_names {plans : List TableExtractionPlan} {name : Str}
    {p : TableExtractionPlan} (h : findPlan plans name = some p) :
    name ∈ allDepNames plans := by
  have hm := findPlan_some_mem h
  have hn := findPlan_some_name h
  unfold allDepNames
  rw [List.mem_flatMap]
  exact ⟨p, hm, by rw [hn]; exact List.mem_cons_self _ _⟩

/-- A name having a plan, as an existential over the input list. -/
theorem findPlan_isSome_iff (plans : List TableExtractionPlan) (name : Str) :
    (findPlan plans name).isSome ↔ ∃ q ∈ plans, q.TableName = name := by
  unfold findPlan
  rw [List.find?_isSome]
  constructor
  · rintro ⟨x, hx, he⟩
    exact ⟨x, hx, by simpa using he⟩
  · rintro ⟨x, hx, he⟩
    exact ⟨x, hx, by simpa using he⟩

/-- Filtering with a stronger predicate yields at most as many elements. -/
theorem length_filter_mono {α : Type} (l : List α) (p q : α → Bool)
    (h : ∀ a ∈ l, q a = true → p a = true) :
    (l.filter q).length ≤ (l.filter p).length := by
  induction l with
  | nil => simp
  | cons a as ih =>
    have ih' := ih (fun x hx => h x (List.mem_cons_of_mem a hx))
    have ha := h a (List.mem_cons_self a as)
    by_cases hq : q a = true
    · rw [List.filter_cons, if_pos hq, List.filter_cons, if_pos (ha hq)]
      simpa using ih'
    · rw [List.filter_cons, if_neg hq, List.filter_cons]
      by_cases hp : p a = true
      · rw [if_pos hp]
        simp only [List.length_cons]
        omega
      · rw [if_neg hp]
        exact ih'

/-- Filtering with a strictly stronger predicate that loses a present
element yields strictly fewer elements. -/
theorem length_filter_strict {α : Type} (l : List α) (p q : α → Bool) (x : α)
    (hmem : x ∈ l) (hqx : q x = false) (hpx : p x = true)
    (h : ∀ a ∈ l, q a = true → p a = true) :
    (l.filter q).length < (l.filter p).length := by
  induction l with
  | nil => simp at hmem
  | cons a as ih =>
    have h' : ∀ b ∈ as, q b = true → p b = true :=
      fun b hb => h b (List.mem_cons_of_mem a hb)
    rcases List.mem_cons.1 hmem with he | hmem'
    · subst he
      rw [List.filter_cons, List.filter_cons, hqx, hpx]
      simp only [Bool.false_eq_true, if_false, if_true, List.length_cons]
      have := length_filter_mono as p q h'
      omega
    · have hlt := ih hmem' h'
      rw [List.filter_cons, List.filter_cons]
      by_cases hq : q a = true
      · rw [if_pos hq, if_pos (h a (List.mem_cons_self a as) hq)]
        simpa using hlt
      · rw [if_neg hq]
        by_cases hp : p a = true
        · rw [if_pos hp]
          simp only [List.length_cons]
          omega
        · rw [if_neg hp]
          exact hlt

/-- The unvisited count never grows as the visited set grows. -/
theorem unvisitedCount_mono (plans : List TableExtractionPlan) (v v' : List Str)
    (h : ∀ x ∈ v, x ∈ v') :
    unvisitedCount plans v' ≤ unvisitedCount plans v := by
  refine length_filter_mono _ _ _ ?_
  intro a _ ha
  simp only [decide_eq_true_eq] at ha ⊢
  exact fun hm => ha (h a hm)

/-- Visiting a fresh touchable name strictly shrinks the unvisited count. -/
theorem unvisitedCount_strict (plans : List TableExtractionPlan) (v : List Str)
    (name : Str) (hmem : name ∈ allDepNames plans) (hnv : name ∉ v) :
    unvisitedCount plans (name :: v) < unvisitedCount plans v := by
  refine length_filter_strict _ _ _ name (List.mem_dedup.2 hmem) ?_ ?_ ?_
  · simp
  · simp [hnv]
  · intro a _ ha
    simp only [decide_eq_true_eq] at ha ⊢
    intro hm
    exact ha (List.mem_cons_of_mem name hm)

/-- The unvisited count is below the chosen fuel. -/
theorem unvisitedCount_lt_sortFuel (plans : List TableExtractionPlan) (v : List Str) :
    unvisitedCount plans v < sortFuel plans := by
  unfold unvisitedCount sortFuel
  have h1 := List.length_filter_le (fun n => decide (n ∉ v)) (allDepNames plans).dedup
  have h2 := (List.dedup_sublist (allDepNames plans)).length_le
  omega

/-- States extend reflexively. -/
theorem extState_refl (st : SortState) : ExtState st st :=
  ⟨fun _ hx => hx, [], by simp⟩

/-- State extension is transitive. -/
theorem extState_trans {s1 s2 s3 : SortState} (h1 : ExtState s1 s2) (h2 : ExtState s2 s3) :
    ExtState s1 s3 := by
  obtain ⟨hv1, t1, ht1⟩ := h1
  obtain ⟨hv2, t2, ht2⟩ := h2
  exact ⟨fun x hx => hv2 x (hv1 x hx), t1 ++ t2, by rw [ht2, ht1, List.append_assoc]⟩

/-- Each visit only extends the state. -/
theorem visit_ext (plans : List TableExtractionPlan) :
    ∀ fuel name st, ExtState st (visit plans fuel name st) := by
  intro fuel
  induction fuel with
  | zero => intro name st; exact extState_refl st
  | succ a ih =>
    intro name st
    show ExtState st (visit plans (a + 1) name st)
    rw [visit]
    by_cases hmem : name ∈ st.visited
    · rw [if_pos hmem]
      exact extState_refl st
    · rw [if_neg hmem]
      have hext1 : ExtState st ⟨st.sorted, name :: st.visited⟩ :=
        ⟨fun x hx => List.mem_cons_of_mem name hx, [], by simp⟩
      cases hfp : findPlan plans name with
      | none => exact hext1
      | some plan =>
        have hfold : ∀ (deps : List Str) (s : SortState),
            ExtState s (deps.foldl (fun s d => visit plans a d s) s) := by
          intro deps
          induction deps with
          | nil => intro s; exact extState_refl s
          | cons d ds ihd =>
            intro s
            rw [List.foldl_cons]
            exact extState_trans (ih d s) (ihd (visit plans a d s))
        refine extState_trans hext1 (extState_trans (hfold plan.Dependencies _) ?_)
        exact ⟨fun x hx => hx, [plan], rfl⟩

/-- With fuel above the unvisited count, the walk's result does not depend
on the fuel: the Go recursion, which has no fuel, terminates with this
common value. -/
theorem visit_fuel_congr (plans : List TableExtractionPlan) :
    ∀ f1 f2 name st, unvisitedCount plans st.visited < f1 →
      unvisitedCount plans st.visited < f2 →
      visit plans f1 name st = visit plans f2 name st := by
  intro f1
  induction f1 with
  | zero => intro f2 name st h1 _; omega
  | succ a ih =>
    intro f2 name st h1 h2
    cases f2 with
    | zero => omega
    | succ b =>
      show visit plans (a + 1) name st = visit plans (b + 1) name st
      rw [visit, visit]
      by_cases hmem : name ∈ st.visited
      · rw [if_pos hmem, if_pos hmem]
      · rw [if_neg hmem, if_neg hmem]
        cases hfp : findPlan plans name with
        | none => rfl
        | some plan =>
          have hnames : name ∈ allDepNames plans := findPlan_some_mem_names hfp
          have hstrict : unvisitedCount plans (name :: st.visited) <
              unvisitedCount plans st.visited :=
            unvisitedCount_strict plans st.visited name hnames hmem
          have hfold : ∀ (deps : List Str) (s : SortState),
              unvisitedCount plans s.visited < a → unvisitedCount plans s.visited < b →
              deps.foldl (fun s d => visit plans a d s) s =
                deps.foldl (fun s d => visit plans b d s) s := by
            intro deps
            induction deps with
            | nil => intro s _ _; rfl
            | cons d ds ihd =>
              intro s hsa hsb
              rw [List.foldl_cons, List.foldl_cons]
              have hvd : visit plans a d s = visit plans b d s := ih b d s hsa hsb
              have hUle : unvisitedCount plans (visit plans a d s).visited ≤
                  unvisitedCount plans s.visited :=
                unvisitedCount_mono plans _ _ (visit_ext plans a d s).1
              rw [← hvd]
              exact ihd (visit plans a d s) (by omega) (by omega)
          have hfe := hfold plan.Dependencies ⟨st.sorted, name :: st.visited⟩
            (by simp only []; omega) (by simp only []; omega)
          dsimp only
          rw [hfe]

/-- The whole resolver is fuel-independent above the chosen fuel. -/
theorem sortByDependenciesFuel_congr (plans : List TableExtractionPlan) (f1 f2 : Nat)
    (h1 : sortFuel plans ≤ f1) (h2 : sortFuel plans ≤ f2) :
    sortByDependenciesFuel plans f1 = sortByDependenciesFuel plans f2 := by
  unfold sortByDependenciesFuel
  have hfold : ∀ (roots : List TableExtractionPlan) (st : SortState),
      roots.foldl (fun st p => visit plans f1 p.TableName st) st =
        roots.foldl (fun st p => visit plans f2 p.TableName st) st := by
    intro roots
    induction roots with
    | nil => intro st; rfl
    | cons r rs ihr =>
      intro st
      rw [List.foldl_cons, List.foldl_cons]
      have hU := unvisitedCount_lt_sortFuel plans st.visited
      have hv : visit plans f1 r.TableName st = visit plans f2 r.TableName st :=
        visit_fuel_congr plans f1 f2 r.TableName st (by omega) (by omega)
      rw [← hv]
      exact ihr (visit plans f1 r.TableName st)
  rw [hfold]

/-- Folding visits over a dependency list only extends the state. -/
theorem visit_fold_ext (plans : List TableExtractionPlan) (fuel : Nat) :
    ∀ (deps : List Str) (s : SortState),
      ExtState s (deps.foldl (fun s d => visit plans fuel d s) s) := by
  intro deps
  induction deps with
  | nil => intro s; exact extState_refl s
  | cons d ds ihd =>
    intro s
    rw [List.foldl_cons]
    exact extState_trans (visit_ext plans fuel d s) (ihd (visit plans fuel d s))

/-- The walk preserves the invariant and marks the visited name. -/
theorem visit_inv (plans : List TableExtractionPlan) :
    ∀ fuel name st grey, unvisitedCount plans st.visited < fuel →
      SortInv plans st grey →
      SortInv plans (visit plans fuel name st) grey ∧
        name ∈ (visit plans fuel name st).visited := by
  intro fuel
  induction fuel with
  | zero => intro name st grey h _; omega
  | succ a ih =>
    intro name st grey hU hInv
    rw [visit]
    by_cases hmem : name ∈ st.visited
    · rw [if_pos hmem]
      exact ⟨hInv, hmem⟩
    · rw [if_neg hmem]
      cases hfp : findPlan plans name with
      | none =>
        dsimp only
        obtain ⟨h1, h2, h3, h4, h5⟩ := hInv
        refine ⟨⟨h1, ?_, ?_, h4, ?_⟩, List.mem_cons_self name st.visited⟩
        · exact fun x hx => List.mem_cons_of_mem name (h2 x hx)
        · exact fun x hx => List.mem_cons_of_mem name (h3 x hx)
        · intro x hx hps
          rcases List.mem_cons.1 hx with he | hx'
          · subst he
            rw [hfp] at hps
            simp at hps
          · exact h5 x hx' hps
      | some plan =>
        dsimp only
        have hnames : name ∈ allDepNames plans := findPlan_some_mem_names hfp
        have hU1 : unvisitedCount plans (name :: st.visited) < a := by
          have := unvisitedCount_strict plans st.visited name hnames hmem
          omega
        obtain ⟨h1, h2, h3, h4, h5⟩ := hInv
        have hInv1 : SortInv plans ⟨st.sorted, name :: st.visited⟩ (name :: grey) := by
          refine ⟨h1, ?_, ?_, ?_, ?_⟩
          · exact fun x hx => List.mem_cons_of_mem name (h2 x hx)
          · intro x hx
            rcases List.mem_cons.1 hx with he | hx'
            · exact he ▸ List.mem_cons_self name st.visited
            · exact List.mem_cons_of_mem name (h3 x hx')
          · intro x hx
            rcases List.mem_cons.1 hx with he | hx'
            · subst he
              intro hin
              exact hmem (h2 x hin)
            · exact h4 x hx'
          · intro x hx hps
            rcases List.mem_cons.1 hx with he | hx'
            · exact Or.inr (he ▸ List.mem_cons_self name grey)
            · rcases h5 x hx' hps with hl | hr
              · exact Or.inl hl
              · exact Or.inr (List.mem_cons_of_mem name hr)
        have hfold : ∀ (deps : List Str) (s : SortState),
            unvisitedCount plans s.visited < a → SortInv plans s (name :: grey) →
            SortInv plans (deps.foldl (fun s d => visit plans a d s) s) (name :: grey) := by
          intro deps
          induction deps with
          | nil => exact fun s _ h => h
          | cons d ds ihd =>
            intro s hsU hsInv
            rw [List.foldl_cons]
            have hstep := (ih d s (name :: grey) hsU hsInv).1
            have hUle : unvisitedCount plans (visit plans a d s).visited ≤
                unvisitedCount plans s.visited :=
              unvisitedCount_mono plans _ _ (visit_ext plans a d s).1
            exact ihd (visit plans a d s) (by omega) hstep
        have hInvF := hfold plan.Dependencies ⟨st.sorted, name :: st.visited⟩ hU1 hInv1
        have hExtF := visit_fold_ext plans a plan.Dependencies ⟨st.sorted, name :: st.visited⟩
        obtain ⟨g1, g2, g3, g4, g5⟩ := hInvF
        obtain ⟨hvsub, t, ht⟩ := hExtF
        have hpname : plan.TableName = name := findPlan_some_name hfp
        have hnmem2 : name ∈
            (plan.Dependencies.foldl (fun s d => visit plans a d s)
              ⟨st.sorted, name :: st.visited⟩).visited :=
          hvsub name (List.mem_cons_self name st.visited)
        have hnameNotSorted : name ∉ namesOf
            (plan.Dependencies.foldl (fun s d => visit plans a d s)
              ⟨st.sorted, name :: st.visited⟩).sorted :=
          g4 name (List.mem_cons_self name grey)
        have hnamesApp : namesOf
            ((plan.Dependencies.foldl (fun s d => visit plans a d s)
              ⟨st.sorted, name :: st.visited⟩).sorted ++ [plan]) =
            namesOf (plan.Dependencies.foldl (fun s d => visit plans a d s)
              ⟨st.sorted, name :: st.visited⟩).sorted ++ [name] := by
          unfold namesOf
          rw [List.map_append]
          simp [hpname]
        refine ⟨⟨?_, ?_, ?_, ?_, ?_⟩, hnmem2⟩
        · show (namesOf (_ ++ [plan])).Nodup
          rw [hnamesApp]
          simp [List.nodup_append, g1, hnameNotSorted]
        · intro x hx
          rw [hnamesApp] at hx
          rcases List.mem_append.1 hx with hx' | hx'
          · exact g2 x hx'
          · simp only [List.mem_singleton] at hx'
            exact hx' ▸ hnmem2
        · intro x hx
          exact g3 x (List.mem_cons_of_mem name hx)
        · intro x hx
          rw [hnamesApp]
          intro hin
          rcases List.mem_append.1 hin with hin' | hin'
          · exact g4 x (List.mem_cons_of_mem name hx) hin'
          · simp only [List.mem_singleton] at hin'
            subst hin'
            exact hmem (h3 x hx)
        · intro x hx hps
          rcases g5 x hx hps with hl | hr
          · refine Or.inl ?_
            rw [hnamesApp]
            exact List.mem_append.2 (Or.inl hl)
          · rcases List.mem_cons.1 hr with he | hr'
            · refine Or.inl ?_
              rw [hnamesApp]
              exact List.mem_append.2 (Or.inr (he ▸ List.mem_singleton.2 rfl))
            · exact Or.inr hr'

/-- Under acyclicity the walk preserves the topological-order property of
the accumulated output, given that every grey name reaches the visited
name. -/
theorem visit_topo (plans : List TableExtractionPlan) (hAc : AcyclicDeps plans) :
    ∀ fuel name st grey, unvisitedCount plans st.visited < fuel →
      SortInv plans st grey → TopoInv plans st →
      (∀ g ∈ grey, Reaches plans g name) →
      TopoInv plans (visit plans fuel name st) := by
  intro fuel
  induction fuel with
  | zero => intro name st grey h _ _ _; omega
  | succ a ih =>
    intro name st grey hU hInv hTopo hg
    rw [visit]
    by_cases hmem : name ∈ st.visited
    · rw [if_pos hmem]
      exact hTopo
    · rw [if_neg hmem]
      cases hfp : findPlan plans name with
      | none =>
        dsimp only
        exact hTopo
      | some plan =>
        dsimp only
        have hnames : name ∈ allDepNames plans := findPlan_some_mem_names hfp
        have hU1 : unvisitedCount plans (name :: st.visited) < a := by
          have := unvisitedCount_strict plans st.visited name hnames hmem
          omega
        obtain ⟨h1, h2, h3, h4, h5⟩ := hInv
        have hInv1 : SortInv plans ⟨st.sorted, name :: st.visited⟩ (name :: grey) := by
          refine ⟨h1, ?_, ?_, ?_, ?_⟩
          · exact fun x hx => List.mem_cons_of_mem name (h2 x hx)
          · intro x hx
            rcases List.mem_cons.1 hx with he | hx'
            · exact he ▸ List.mem_cons_self name st.visited
            · exact List.mem_cons_of_mem name (h3 x hx')
          · intro x hx
            rcases List.mem_cons.1 hx with he | hx'
            · subst he
              intro hin
              exact hmem (h2 x hin)
            · exact h4 x hx'
          · intro x hx hps
            rcases List.mem_cons.1 hx with he | hx'
            · exact Or.inr (he ▸ List.mem_cons_self name grey)
            · rcases h5 x hx' hps with hl | hr
              · exact Or.inl hl
              · exact Or.inr (List.mem_cons_of_mem name hr)
        have hfold : ∀ (deps : List Str), (∀ d ∈ deps, d ∈ plan.Dependencies) →
            ∀ s : SortState,
            unvisitedCount plans s.visited < a → SortInv plans s (name :: grey) →
            TopoInv plans s →
            SortInv plans (deps.foldl (fun s d => visit plans a d s) s) (name :: grey) ∧
            TopoInv plans (deps.foldl (fun s d => visit plans a d s) s) ∧
            (∀ d ∈ deps, d ∈ (deps.foldl (fun s d => visit plans a d s) s).visited) := by
          intro deps
          induction deps with
          | nil =>
            intro _ s _ hsInv hsTopo
            exact ⟨hsInv, hsTopo, by simp⟩
          | cons d ds ihd =>
            intro hsub s hsU hsInv hsTopo
            have hdmem : d ∈ plan.Dependencies := hsub d (List.mem_cons_self d ds)
            have hreach : ∀ g ∈ name :: grey, Reaches plans g d := by
              intro g hgm
              have hedge : depEdge plans name d := ⟨plan, hfp, hdmem⟩
              rcases List.mem_cons.1 hgm with he | hgm'
              · exact he ▸ Relation.ReflTransGen.single hedge
              · exact Relation.ReflTransGen.tail (hg g hgm') hedge
            have hstep := visit_inv plans a d s (name :: grey) hsU hsInv
            have hstepTopo := ih d s (name :: grey) hsU hsInv hsTopo hreach
            have hUle : unvisitedCount plans (visit plans a d s).visited ≤
                unvisitedCount plans s.visited :=
              unvisitedCount_mono plans _ _ (visit_ext plans a d s).1
            have hrest := ihd (fun x hx => hsub x (List.mem_cons_of_mem d hx))
              (visit plans a d s) (by omega) hstep.1 hstepTopo
            rw [List.foldl_cons]
            refine ⟨hrest.1, hrest.2.1, ?_⟩
            intro x hx
            rcases List.mem_cons.1 hx with he | hx'
            · rw [he]
              exact (visit_fold_ext plans a ds (visit plans a d s)).1 d hstep.2
            · exact hrest.2.2 x hx'
        have hF := hfold plan.Dependencies (fun _ hx => hx)
          ⟨st.sorted, name :: st.visited⟩ hU1 hInv1 hTopo
        obtain ⟨gInv, gTopo, gDeps⟩ := hF
        obtain ⟨g1, g2, g3, g4, g5⟩ := gInv
        intro i p hp d hd hps
        have hbound := (List.get?_eq_some.1 hp).1
        rw [List.length_append, List.length_singleton] at hbound
        by_cases hi : i < (plan.Dependencies.foldl (fun s d => visit plans a d s)
            ⟨st.sorted, name :: st.visited⟩).sorted.length
        · rw [List.get?_append hi] at hp
          obtain ⟨j, q, hj, hq, hqn⟩ := gTopo i p hp d hd hps
          refine ⟨j, q, hj, ?_, hqn⟩
          rw [List.get?_append (by omega)]
          exact hq
        · have hieq : i = (plan.Dependencies.foldl (fun s d => visit plans a d s)
              ⟨st.sorted, name :: st.visited⟩).sorted.length := by omega
          subst hieq
          rw [List.get?_concat_length] at hp
          have hpe : p = plan := by
            injection hp with hp'
            exact hp'.symm
          rw [hpe] at hd
          have hdv := gDeps d hd
          rcases g5 d hdv hps with hl | hr
          · rw [namesOf, List.mem_map] at hl
            obtain ⟨q, hq, hqn⟩ := hl
            obtain ⟨j, hj⟩ := List.mem_iff_get?.1 hq
            have hjlt := (List.get?_eq_some.1 hj).1
            refine ⟨j, q, hjlt, ?_, hqn⟩
            rw [List.get?_append hjlt]
            exact hj
          · have hreachd : Reaches plans d name := by
              rcases List.mem_cons.1 hr with he | hr'
              · exact he ▸ Relation.ReflTransGen.refl
              · exact hg d hr'
            have hedge : depEdge plans name d := ⟨plan, hfp, hd⟩
            exact absurd hreachd (hAc name d hedge)

/-- The first index satisfying a predicate is at most any index carrying a
satisfying element. -/
theorem findIdx_le_of_get? {α : Type} (p : α → Bool) :
    ∀ (l : List α) (j : Nat) (q : α), l.get? j = some q → p q = true →
      l.findIdx p ≤ j := by
  intro l
  induction l with
  | nil => intro j q hj _; simp at hj
  | cons a as ihl =>
    intro j q hj hq
    cases j with
    | zero =>
      simp only [List.get?] at hj
      injection hj with hj'
      rw [List.findIdx_cons, hj', hq]
      simp
    | succ j =>
      simp only [List.get?] at hj
      rw [List.findIdx_cons]
      cases hpa : p a
      · simp only [cond_false]
        have := ihl j q hj hq
        omega
      · simp

/-- The initial state satisfies the invariant. -/
theorem sortInv_init (plans : List TableExtractionPlan) :
    SortInv plans ⟨[], []⟩ [] := by
  refine ⟨by simp [namesOf], ?_, ?_, ?_, ?_⟩ <;> intro x hx <;> simp [namesOf] at hx

/-- The initial state trivially satisfies the order property. -/
theorem topoInv_init (plans : List TableExtractionPlan) :
    TopoInv plans ⟨[], []⟩ := by
  intro i p hp
  simp at hp

/-- The outer root loop preserves the invariant, visits every root, and
under acyclicity preserves the order property. -/
theorem sortRun_inv (plans : List TableExtractionPlan) :
    ∀ (roots : List TableExtractionPlan) (st : SortState), SortInv plans st [] →
      SortInv plans
        (roots.foldl (fun st p => visit plans (sortFuel plans) p.TableName st) st) [] ∧
      (∀ r ∈ roots, r.TableName ∈
        (roots.foldl (fun st p => visit plans (sortFuel plans) p.TableName st) st).visited) := by
  intro roots
  induction roots with
  | nil => intro st h; exact ⟨h, by simp⟩
  | cons r rs ihr =>
    intro st hInv
    have hU := unvisitedCount_lt_sortFuel plans st.visited
    have hstep := visit_inv plans (sortFuel plans) r.TableName st [] hU hInv
    rw [List.foldl_cons]
    have hrest := ihr (visit plans (sortFuel plans) r.TableName st) hstep.1
    refine ⟨hrest.1, ?_⟩
    intro x hx
    rcases List.mem_cons.1 hx with he | hx'
    · rw [he]
      have hfext : ∀ (rts : List TableExtractionPlan) (s : SortState),
          ExtState s (rts.foldl (fun st p => visit plans (sortFuel plans) p.TableName st) s) := by
        intro rts
        induction rts with
        | nil => intro s; exact extState_refl s
        | cons t ts iht =>
          intro s
          rw [List.foldl_cons]
          exact extState_trans (visit_ext plans (sortFuel plans) t.TableName s)
            (iht (visit plans (sortFuel plans) t.TableName s))
      exact (hfext rs (visit plans (sortFuel plans) r.TableName st)).1 r.TableName hstep.2
    · exact hrest.2 x hx'

/-- The outer root loop preserves the order property under acyclicity. -/
theorem sortRun_topo (plans : List TableExtractionPlan) (hAc : AcyclicDeps plans) :
    ∀ (roots : List TableExtractionPlan) (st : SortState), SortInv plans st [] →
      TopoInv plans st →
      TopoInv plans
        (roots.foldl (fun st p => visit plans (sortFuel plans) p.TableName st) st) := by
  intro roots
  induction roots with
  | nil => intro st _ h; exact h
  | cons r rs ihr =>
    intro st hInv hTopo
    have hU := unvisitedCount_lt_sortFuel plans st.visited
    have hstep := visit_inv plans (sortFuel plans) r.TableName st [] hU hInv
    have hstepT := visit_topo plans hAc (sortFuel plans) r.TableName st [] hU hInv hTopo
      (by intro g hg; simp at hg)
    rw [List.foldl_cons]
    exact ihr (visit plans (sortFuel plans) r.TableName st) hstep.1 hstepT

/-- Claim C1: with dependency checking enabled and no dependency cycle,
the resolver's output is a valid topological order — for every plan in the
output and every dependency name that has a plan in the input, the first
output position carrying that dependency is strictly before the plan's
position. -/
theorem c1_topological_order (plans : List TableExtractionPlan)
    (hAc : AcyclicDeps plans) :
    ∀ i p, (sortByDependencies plans).get? i = some p →
      ∀ d ∈ p.Dependencies, (∃ q ∈ plans, q.TableName = d) →
        (sortByDependencies plans).findIdx (fun q => q.TableName == d) < i := by
  have hInvF := sortRun_inv plans plans ⟨[], []⟩ (sortInv_init plans)
  have hTopoF := sortRun_topo plans hAc plans ⟨[], []⟩ (sortInv_init plans)
    (topoInv_init plans)
  intro i p hp d hd hex
  have hps : (findPlan plans d).isSome := (findPlan_isSome_iff plans d).2 hex
  obtain ⟨j, q, hj, hq, hqn⟩ := hTopoF i p hp d hd hps
  have hle : (sortByDependencies plans).findIdx (fun q => q.TableName == d) ≤ j :=
    findIdx_le_of_get? _ _ j q hq (by simp [hqn])
  omega

/-- The two-plan instance a → b has no dependency cycle. -/
theorem acPlans_acyclic : AcyclicDeps acPlans := by
  have hedge : ∀ x y : Str, depEdge acPlans x y → x = chars ("a") ∧ y = chars ("b") := by
    intro x y ⟨p, hfind, hdep⟩
    by_cases hxa : chars ("a") = x
    · have hp : p = planA := by
        rw [← hxa] at hfind
        have : findPlan acPlans (chars ("a")) = some planA := by decide
        rw [this] at hfind
        injection hfind with h
        exact h.symm
      subst hp
      have : y = chars ("b") := by
        have hdep' : y ∈ [chars ("b")] := hdep
        simpa using hdep'
      exact ⟨hxa.symm, this⟩
    · by_cases hxb : chars ("b") = x
      · have hp : p = planB := by
          rw [← hxb] at hfind
          have : findPlan acPlans (chars ("b")) = some planB := by decide
          rw [this] at hfind
          injection hfind with h
          exact h.symm
        subst hp
        have hdep' : y ∈ ([] : List Str) := hdep
        simp at hdep'
      · have hnone : findPlan acPlans x = none := by
          unfold findPlan
          rw [List.find?_eq_none]
          intro q hq
          simp only [acPlans, List.mem_cons, List.not_mem_nil, or_false] at hq
          intro hbeq
          simp only [beq_iff_eq] at hbeq
          rcases hq with hq | hq
          · subst hq
            exact hxa (by rw [← hbeq]; rfl)
          · subst hq
            exact hxb (by rw [← hbeq]; rfl)
        rw [hnone] at hfind
        exact absurd hfind (by simp)
  intro x y hxy hyx
  have h1 := hedge x y hxy
  rcases Relation.ReflTransGen.cases_head hyx with he | ⟨c, hc, _⟩
  · rw [h1.1, h1.2] at he
    exact absurd he (by decide)
  · have h2 := hedge y c hc
    rw [h1.2] at h2
    exact absurd h2.1 (by decide)

/-- Witness for C1 on the instance a → b: the output places b at index 0
and a at index 1, and the dependency b of the plan at index 1 indeed
occurs strictly earlier. -/
theorem c1_topological_order_witness :
    (sortByDependencies acPlans).findIdx (fun q => q.TableName == chars ("b")) < 1 :=
  c1_topological_order acPlans acPlans_acyclic 1 planA (by decide) (chars ("b"))
    (by decide) (by decide)

/-- A duplicate-free list counts a present element exactly once. -/
theorem countP_eq_one_of_nodup_mem (l : List Str) (X : Str) (hnd : l.Nodup) (hm : X ∈ l) :
    l.countP (fun n => n == X) = 1 := by
  induction l with
  | nil => simp at hm
  | cons a as ih =>
    have hhd := (List.nodup_cons.1 hnd).1
    have htl := (List.nodup_cons.1 hnd).2
    rcases List.mem_cons.1 hm with he | hm'
    · subst he
      rw [List.countP_cons]
      have h0 : as.countP (fun n => n == X) = 0 := by
        rw [List.countP_eq_zero]
        intro b hb
        simp only [beq_iff_eq]
        intro he2
        exact hhd (he2 ▸ hb)
      rw [h0]
      simp
    · have hax : ¬ (a == X) = true := by
        simp only [beq_iff_eq]
        intro he
        exact hhd (he ▸ hm')
      rw [List.countP_cons, ih htl hm']
      simp [hax]

/-- Claim C2: on any input containing a dependency 2-cycle between tables
A and B, the resolver terminates — its fueled model is independent of any
extra fuel — and its output contains exactly one plan named A and exactly
one plan named B. -/
theorem c2_cycle_terminates (plans : List TableExtractionPlan) (A B : Str)
    (pa pb : TableExtractionPlan) (hpa : pa ∈ plans) (hA : pa.TableName = A)
    (hab : B ∈ pa.Dependencies) (hpb : pb ∈ plans) (hB : pb.TableName = B)
    (hba : A ∈ pb.Dependencies) (hne : A ≠ B) :
    (sortByDependencies plans).countP (fun p => p.TableName == A) = 1 ∧
    (sortByDependencies plans).countP (fun p => p.TableName == B) = 1 ∧
    ∀ extra, sortByDependenciesFuel plans (sortFuel plans + extra) =
      sortByDependencies plans := by
  obtain ⟨⟨g1, g2, g3, g4, g5⟩, hroots⟩ :=
    sortRun_inv plans plans ⟨[], []⟩ (sortInv_init plans)
  have hcount : ∀ (X : Str) (q0 : TableExtractionPlan), q0 ∈ plans → q0.TableName = X →
      (sortByDependencies plans).countP (fun p => p.TableName == X) = 1 := by
    intro X q0 hq0 hqX
    have hvis : X ∈ (plans.foldl
        (fun st p => visit plans (sortFuel plans) p.TableName st) ⟨[], []⟩).visited :=
      hqX ▸ hroots q0 hq0
    have hps : (findPlan plans X).isSome :=
      (findPlan_isSome_iff plans X).2 ⟨q0, hq0, hqX⟩
    have hmem : X ∈ namesOf (plans.foldl
        (fun st p => visit plans (sortFuel plans) p.TableName st) ⟨[], []⟩).sorted := by
      rcases g5 X hvis hps with h | h
      · exact h
      · simp at h
    have hone := countP_eq_one_of_nodup_mem _ X g1 hmem
    have hcnt : (namesOf (plans.foldl
        (fun st p => visit plans (sortFuel plans) p.TableName st) ⟨[], []⟩).sorted).countP
          (fun n => n == X) =
        (sortByDependencies plans).countP (fun p => p.TableName == X) := by
      rw [namesOf, List.countP_map]
      rfl
    rw [← hcnt]
    exact hone
  refine ⟨hcount A pa hpa hA, hcount B pb hpb hB, ?_⟩
  intro extra
  exact sortByDependenciesFuel_congr plans (sortFuel plans + extra) (sortFuel plans)
    (by omega) (le_refl _)

/-- Witness for C2 on the synthetic 2-cycle a → b, b → a: both plans are
emitted exactly once and three units of extra fuel change nothing. -/
theorem c2_cycle_terminates_witness :
    (sortByDependencies cycPlans).countP (fun p => p.TableName == chars ("a")) = 1 ∧
    (sortByDependencies cycPlans).countP (fun p => p.TableName == chars ("b")) = 1 ∧
    sortByDependenciesFuel cycPlans (sortFuel cycPlans + 3) = sortByDependencies cycPlans := by
  have h := c2_cycle_terminates cycPlans (chars ("a")) (chars ("b")) planA planB2
    (by decide) (by decide) (by decide) (by decide) (by decide) (by decide) (by decide)
  exact ⟨h.1, h.2.1, h.2.2 3⟩
